import Mathlib

/-!
Verification of the Notflix cast receiver's manifest-rewriting layer
(`receiver.js`).

JavaScript strings are modelled as lists of Unicode code points
(`List Nat`); byte strings are lists of byte values.  Exceptions are
modelled by `Option`: a function returns `none` exactly when the
corresponding JavaScript code throws.
-/

namespace Receiver

/-- Code points of a Lean string literal; used to transcribe the string
literals appearing in `receiver.js`. -/
def S (s : String) : List Nat := s.data.map Char.toNat

/-- JS `Array.prototype.join(sep)`. -/
def joinSep (sep : List Nat) : List (List Nat) → List Nat
  | [] => []
  | [l] => l
  | l :: ls => l ++ sep ++ joinSep sep ls

/-! ## Base64 (`window.btoa` / `window.atob`, `Buffer` equivalents) -/

/-- ASCII whitespace removed by the forgiving-base64 decoder (`atob`). -/
def isB64Ws (c : Nat) : Bool := c = 9 || c = 10 || c = 12 || c = 13 || c = 32

/-- The base64 alphabet: digit value (0-63) to character code. -/
def b64c (n : Nat) : Nat :=
  if n < 26 then 65 + n
  else if n < 52 then 97 + (n - 26)
  else if n < 62 then 48 + (n - 52)
  else if n = 62 then 43
  else 47

/-- Character code back to base64 digit value; `none` for characters
outside the alphabet (`atob` throws on those). -/
def b64d (c : Nat) : Option Nat :=
  if 65 ≤ c ∧ c ≤ 90 then some (c - 65)
  else if 97 ≤ c ∧ c ≤ 122 then some (c - 97 + 26)
  else if 48 ≤ c ∧ c ≤ 57 then some (c - 48 + 52)
  else if c = 43 then some 62
  else if c = 47 then some 63
  else none

/-- Base64-encode a byte list, three bytes to four characters, with `=`
(code 61) padding, as `btoa` does. -/
def base64Encode : List Nat → List Nat
  | [] => []
  | [b1] => [b64c (b1 / 4), b64c (b1 % 4 * 16), 61, 61]
  | [b1, b2] => [b64c (b1 / 4), b64c (b1 % 4 * 16 + b2 / 16), b64c (b2 % 16 * 4), 61]
  | b1 :: b2 :: b3 :: rest =>
    b64c (b1 / 4) :: b64c (b1 % 4 * 16 + b2 / 16) :: b64c (b2 % 16 * 4 + b3 / 64) ::
      b64c (b3 % 64) :: base64Encode rest

/-- Decode whitespace-free, padding-free base64 text in groups of four
characters (a final group of two or three characters yields one or two
bytes, discarding the leftover low bits, as forgiving-base64 does). -/
def b64Groups : List Nat → Option (List Nat)
  | [] => some []
  | [c1, c2] => do
    let n1 ← b64d c1
    let n2 ← b64d c2
    pure [n1 * 4 + n2 / 16]
  | [c1, c2, c3] => do
    let n1 ← b64d c1
    let n2 ← b64d c2
    let n3 ← b64d c3
    pure [n1 * 4 + n2 / 16, n2 % 16 * 16 + n3 / 4]
  | c1 :: c2 :: c3 :: c4 :: rest => do
    let n1 ← b64d c1
    let n2 ← b64d c2
    let n3 ← b64d c3
    let n4 ← b64d c4
    let tl ← b64Groups rest
    pure ((n1 * 4 + n2 / 16) :: (n2 % 16 * 16 + n3 / 4) :: (n3 % 4 * 64 + n4) :: tl)
  | [_] => none

/-- Remove one or two trailing `=` padding characters when the length is
a multiple of four (the forgiving-base64 rule used by `atob`). -/
def stripPad (t : List Nat) : List Nat :=
  if t.length % 4 = 0 then
    if t.getLast? = some 61 then
      if t.dropLast.getLast? = some 61 then t.dropLast.dropLast else t.dropLast
    else t
  else t

/-- Model of `atob` (forgiving-base64 decode): strip ASCII whitespace,
strip permitted padding, reject length ≡ 1 (mod 4) and any character
outside the alphabet; `none` models the thrown `InvalidCharacterError`. -/
def base64Decode (s : List Nat) : Option (List Nat) :=
  let t := s.filter (fun c => !(isB64Ws c))
  let u := stripPad t
  if u.length % 4 = 1 then none else b64Groups u

/-! ## UTF-8 (`unescape(encodeURIComponent(.))` / `decodeURIComponent(escape(.))`)

The composition `unescape(encodeURIComponent(s))` turns a JS string into
a string whose character codes are the UTF-8 bytes of `s`; the reverse
composition decodes UTF-8, throwing `URIError` on malformed input. -/

/-- UTF-8 bytes of one code point (for scalar values; the branches cover
every `Nat` so the function is total). -/
def utf8Bytes (c : Nat) : List Nat :=
  if c < 128 then [c]
  else if c < 2048 then [192 + c / 64, 128 + c % 64]
  else if c < 65536 then [224 + c / 4096, 128 + c / 64 % 64, 128 + c % 64]
  else [240 + c / 262144, 128 + c / 4096 % 64, 128 + c / 64 % 64, 128 + c % 64]

/-- UTF-8 encode a list of code points. -/
def utf8Encode (s : List Nat) : List Nat := (s.map utf8Bytes).flatten

/-- UTF-8 continuation byte test. -/
def isCont (b : Nat) : Bool := 128 ≤ b && b < 192

/-- Decode one UTF-8 sequence from the front of a byte list, returning
the code point and the remaining bytes; `none` on malformed input
(overlong forms, surrogates, out-of-range values, truncated
sequences). -/
def utf8DecodeChar (l : List Nat) : Option (Nat × List Nat) :=
  match l with
  | [] => none
  | b :: rest =>
    if b < 128 then some (b, rest)
    else if 194 ≤ b ∧ b < 224 then
      match rest with
      | b2 :: rest2 =>
        if isCont b2 then some ((b - 192) * 64 + (b2 - 128), rest2) else none
      | [] => none
    else if 224 ≤ b ∧ b < 240 then
      match rest with
      | b2 :: b3 :: rest3 =>
        let v := (b - 224) * 4096 + (b2 - 128) * 64 + (b3 - 128)
        if isCont b2 ∧ isCont b3 ∧ 2048 ≤ v ∧ (v < 55296 ∨ 57344 ≤ v) then
          some (v, rest3)
        else none
      | _ => none
    else if 240 ≤ b ∧ b < 245 then
      match rest with
      | b2 :: b3 :: b4 :: rest4 =>
        let v := (b - 240) * 262144 + (b2 - 128) * 4096 + (b3 - 128) * 64 + (b4 - 128)
        if isCont b2 ∧ isCont b3 ∧ isCont b4 ∧ 65536 ≤ v ∧ v < 1114112 then
          some (v, rest4)
        else none
      | _ => none
    else none

/-- Decode a whole byte list, one sequence at a time.  The fuel only
bounds the number of decoded code points; every sequence consumes at
least one byte, so the byte count is always enough. -/
def utf8DecodeGo : Nat → List Nat → Option (List Nat)
  | _, [] => some []
  | 0, _ :: _ => none
  | fuel + 1, b :: rest =>
    (utf8DecodeChar (b :: rest)).bind
      (fun p => (utf8DecodeGo fuel p.2).map (fun s => p.1 :: s))

/-- Strict UTF-8 decoding of a byte list; `none` models the `URIError`
of `decodeURIComponent` on malformed sequences. -/
def utf8Decode (l : List Nat) : Option (List Nat) := utf8DecodeGo l.length l

/-! ## JSON (`JSON.stringify` / `JSON.parse` on the side-channel object)

`encodeObject` only ever serializes a flat object with string values, so
`JSON.parse` is modelled on exactly that grammar (a top-level object
whose member values are strings, with the standard string escapes and no
insignificant whitespace, which `JSON.stringify` never emits). -/

/-- Lowercase hex digit, as emitted by `JSON.stringify` in `\uXXXX`. -/
def hexDigit (n : Nat) : Nat := if n < 10 then 48 + n else 97 + (n - 10)

/-- JSON string escaping of one code point, after `JSON.stringify`:
quote and backslash get two-character escapes, the named control
characters get theirs, remaining control characters and lone surrogates
become `\uXXXX`, and everything else is literal. -/
def jsonEscapeChar (c : Nat) : List Nat :=
  if c = 34 then [92, 34]
  else if c = 92 then [92, 92]
  else if c = 8 then [92, 98]
  else if c = 9 then [92, 116]
  else if c = 10 then [92, 110]
  else if c = 12 then [92, 102]
  else if c = 13 then [92, 114]
  else if c < 32 ∨ (55296 ≤ c ∧ c < 57344) then
    [92, 117, hexDigit (c / 4096 % 16), hexDigit (c / 256 % 16),
      hexDigit (c / 16 % 16), hexDigit (c % 16)]
  else [c]

/-- Escaped body of a JSON string. -/
def jsonEscape (s : List Nat) : List Nat := (s.map jsonEscapeChar).flatten

/-- Quoted JSON string literal. -/
def jsonQuote (s : List Nat) : List Nat := 34 :: jsonEscape s ++ [34]

/-- Hex digit value, accepting both cases as `JSON.parse` does. -/
def hexVal (c : Nat) : Option Nat :=
  if 48 ≤ c ∧ c ≤ 57 then some (c - 48)
  else if 97 ≤ c ∧ c ≤ 102 then some (c - 97 + 10)
  else if 65 ≤ c ∧ c ≤ 70 then some (c - 65 + 10)
  else none

/-- Decode one JSON string character (literal or escape) from the front
of the input; `none` on a malformed escape or a raw control character.
Not used at a closing quote. -/
def parseJChar (l : List Nat) : Option (Nat × List Nat) :=
  match l with
  | [] => none
  | c :: rest =>
    if c = 34 then none
    else if c = 92 then
      match rest with
      | e :: rest2 =>
        if e = 34 ∨ e = 92 ∨ e = 47 then some (e, rest2)
        else if e = 98 then some (8, rest2)
        else if e = 102 then some (12, rest2)
        else if e = 110 then some (10, rest2)
        else if e = 114 then some (13, rest2)
        else if e = 116 then some (9, rest2)
        else if e = 117 then
          match rest2 with
          | h1 :: h2 :: h3 :: h4 :: rest3 => do
            let v1 ← hexVal h1
            let v2 ← hexVal h2
            let v3 ← hexVal h3
            let v4 ← hexVal h4
            pure (v1 * 4096 + v2 * 256 + v3 * 16 + v4, rest3)
          | _ => none
        else none
      | [] => none
    else if 32 ≤ c then some (c, rest)
    else none

/-- Parse the body of a JSON string after its opening quote, one
character at a time, up to the closing quote.  The fuel only bounds the
number of decoded characters; every character consumes at least one
input element, so the input length is always enough. -/
def parseJStringGo : Nat → List Nat → Option (List Nat × List Nat)
  | 0, _ => none
  | _ + 1, [] => none
  | fuel + 1, c :: rest =>
    if c = 34 then some ([], rest)
    else
      (parseJChar (c :: rest)).bind
        (fun p => (parseJStringGo fuel p.2).map (fun q => (p.1 :: q.1, q.2)))

/-- Parse the body of a JSON string after its opening quote, returning
the decoded content and the input after the closing quote. -/
def parseJString (l : List Nat) : Option (List Nat × List Nat) :=
  parseJStringGo l.length l

/-- Parse the members of a flat string-valued JSON object, positioned
just after the opening brace (the input must start with the first
member); consumes the closing brace.  The fuel bounds the number of
members. -/
def parseMembers : Nat → List Nat → Option (List (List Nat × List Nat) × List Nat)
  | 0, _ => none
  | fuel + 1, s =>
    match s with
    | 34 :: s1 => do
      let (k, s2) ← parseJString s1
      match s2 with
      | 58 :: 34 :: s4 => do
        let (v, s5) ← parseJString s4
        match s5 with
        | 44 :: s6 => (parseMembers fuel s6).map (fun p => ((k, v) :: p.1, p.2))
        | 125 :: s6 => some ([(k, v)], s6)
        | _ => none
      | _ => none
    | _ => none

/-- Model of `JSON.parse` on the grammar `encodeObject` emits: a single
flat object with string values and no trailing input; `none` models the
thrown `SyntaxError`. -/
def jsonParseObj (s : List Nat) : Option (List (List Nat × List Nat)) :=
  match s with
  | 123 :: 125 :: rest => if rest = [] then some [] else none
  | 123 :: rest =>
    (parseMembers rest.length rest).bind
      (fun p => if p.2 = [] then some p.1 else none)
  | _ => none

/-! ## The side-channel object (`encodeObject` / `decodeObject`) -/

/-- The object smuggled through `CHARACTERISTICS`: the fixed vocabulary
of optional string fields collected in `manifestRewriter`.  A `none`
field is absent from the object. -/
structure SCObj where
  LANGUAGE : Option (List Nat) := none
  NAME : Option (List Nat) := none
  FORCED : Option (List Nat) := none
  CHANNELS : Option (List Nat) := none
deriving DecidableEq, Repr

/-- Members of the object in insertion order, which is the order of the
`for key of ['LANGUAGE', 'NAME', 'FORCED', 'CHANNELS']` loop that builds
it. -/
def objMembers (o : SCObj) : List (List Nat × List Nat) :=
  (match o.LANGUAGE with | some v => [(S "LANGUAGE", v)] | none => []) ++
  (match o.NAME with | some v => [(S "NAME", v)] | none => []) ++
  (match o.FORCED with | some v => [(S "FORCED", v)] | none => []) ++
  (match o.CHANNELS with | some v => [(S "CHANNELS", v)] | none => [])

/-- The `JSON.stringify` output for the side-channel object: members in
insertion order, no whitespace. -/
def jsonStringify (o : SCObj) : List Nat :=
  123 :: joinSep [44]
    ((objMembers o).map (fun m => jsonQuote m.1 ++ (58 :: jsonQuote m.2))) ++ [125]

/-- Property access on the parsed JSON object (`obj.LANGUAGE` etc.);
the last occurrence of a duplicate key wins, as in `JSON.parse`. -/
def lastLookup (k : List Nat) : List (List Nat × List Nat) → Option (List Nat)
  | [] => none
  | (k', v) :: rest =>
    match lastLookup k rest with
    | some r => some r
    | none => if k' = k then some v else none

/-- Rebuild an `SCObj` from parsed JSON members via the four property
accesses `doTracksUpdate` performs. -/
def objOfMembers (ms : List (List Nat × List Nat)) : SCObj :=
  ⟨lastLookup (S "LANGUAGE") ms, lastLookup (S "NAME") ms,
   lastLookup (S "FORCED") ms, lastLookup (S "CHANNELS") ms⟩

/-- `encodeObject`: `btoa(unescape(encodeURIComponent(JSON.stringify(obj))))`. -/
def encodeObject (o : SCObj) : List Nat :=
  base64Encode (utf8Encode (jsonStringify o))

/-- `decodeObject`: `JSON.parse(decodeURIComponent(escape(atob(str))))`;
`none` models any exception thrown along the chain. -/
def decodeObject (s : List Nat) : Option SCObj := do
  let bytes ← base64Decode s
  let txt ← utf8Decode bytes
  let ms ← jsonParseObj txt
  pure (objOfMembers ms)

/-! ## Attribute-line parsing (`manifestRewriter`, lines 42-56)

One parsed attribute is a value with a quoting flag, the `kv` store an
insertion-ordered key-to-attribute map (JS object semantics for the
non-numeric keys occurring in manifests: updates keep the original
position, new keys append). -/

/-- One `kv` entry: `{ value, quoted }`. -/
structure AttrVal where
  value : List Nat
  quoted : Bool
deriving DecidableEq, Repr

/-- The `kv` object of `manifestRewriter`. -/
abbrev KV := List (List Nat × AttrVal)

/-- First-match lookup (keys are unique by construction of `upsert`). -/
def lookupA : KV → List Nat → Option AttrVal
  | [], _ => none
  | (k', a) :: rest, k => if k' = k then some a else lookupA rest k

/-- JS object assignment `kv[k] = a`: replace in place, else append. -/
def upsert : KV → List Nat → AttrVal → KV
  | [], k, a => [(k, a)]
  | (k', a') :: rest, k, a =>
    if k' = k then (k, a) :: rest else (k', a') :: upsert rest k a

/-- Character class `[A-Za-z0-9_-]` of the attribute-key regexes. -/
def isKeyChar (c : Nat) : Bool :=
  (65 ≤ c && c ≤ 90) || (97 ≤ c && c ≤ 122) || (48 ≤ c && c ≤ 57) || c = 95 || c = 45

/-- The `\s` class of JavaScript regular expressions. -/
def isJsSpace (c : Nat) : Bool :=
  c = 9 || c = 10 || c = 11 || c = 12 || c = 13 || c = 32 || c = 160 || c = 5760 ||
  (8192 ≤ c && c ≤ 8202) || c = 8232 || c = 8233 || c = 8239 || c = 8287 ||
  c = 12288 || c = 65279

/-- JS line terminators (`\n`, `\r`, U+2028, U+2029): the characters `.`
cannot match in a regular expression without the `s` flag.  Since `$`
anchors the end of the whole string here, the trailing `(.*)$` of both
attribute regexes succeeds only when the remaining text contains none of
them; backtracking cannot help, as every alternative remainder is a
longer suffix still containing the terminator. -/
def isLineTerm (c : Nat) : Bool := c = 10 || c = 13 || c = 8232 || c = 8233

/-- Match of `/^([A-Za-z0-9_-]+)="([^"]*)"\s*,?(.*)$/`: key, quoted
value (the negated class `[^"]*` crosses line terminators), and the
remaining input, which must be free of line terminators for `(.*)$` to
match; otherwise the whole regex fails. -/
def matchQuoted (line : List Nat) : Option (List Nat × List Nat × List Nat) :=
  let key := line.takeWhile isKeyChar
  if key = [] then none
  else
    match line.drop key.length with
    | 61 :: 34 :: r2 =>
      let v := r2.takeWhile (fun c => c != 34)
      match r2.drop v.length with
      | 34 :: r4 =>
        let r5 := r4.dropWhile isJsSpace
        match r5 with
        | 44 :: r6 => if r6.any isLineTerm then none else some (key, v, r6)
        | _ => if r5.any isLineTerm then none else some (key, v, r5)
      | _ => none
    | _ => none

/-- Match of `/^([A-Za-z0-9_-]+)=([^,]*)\s*,?(.*)$/`: the greedy `[^,]*`
absorbs everything (line terminators included) up to the next comma,
leaving `\s*` empty; the remaining input after the optional comma must
be free of line terminators for `(.*)$` to match. -/
def matchBare (line : List Nat) : Option (List Nat × List Nat × List Nat) :=
  let key := line.takeWhile isKeyChar
  if key = [] then none
  else
    match line.drop key.length with
    | 61 :: r2 =>
      let v := r2.takeWhile (fun c => c != 44)
      match r2.drop v.length with
      | 44 :: r4 => if r4.any isLineTerm then none else some (key, v, r4)
      | r4 => if r4.any isLineTerm then none else some (key, v, r4)
    | _ => none

/-- The `while (line.length > 0)` parse loop, quoted form tried first,
stopping (and silently discarding the rest) when neither regex matches.
The fuel only bounds the iteration count; each iteration consumes at
least two characters, so `line.length` is always enough. -/
def parseKVGo : Nat → List Nat → KV → KV
  | 0, _, kv => kv
  | fuel + 1, line, kv =>
    if line = [] then kv
    else
      match matchQuoted line with
      | some r => parseKVGo fuel r.2.2 (upsert kv r.1 ⟨r.2.1, true⟩)
      | none =>
        match matchBare line with
        | some r => parseKVGo fuel r.2.2 (upsert kv r.1 ⟨r.2.1, false⟩)
        | none => kv

/-- Parse the attribute body of a rendition line (the text after the
`#EXT-X-MEDIA:` prefix). -/
def parseAttrs (l : List Nat) : KV := parseKVGo l.length l []

/-- Rebuild the attribute body in a given entry order: `KEY="VALUE"` or
`KEY=VALUE` joined by commas (lines 76-83). -/
def serializeIns (kv : KV) : List Nat :=
  joinSep [44]
    (kv.map (fun e =>
      if e.2.quoted then e.1 ++ (61 :: 34 :: e.2.value) ++ [34]
      else e.1 ++ (61 :: e.2.value)))

/-- ASCII decimal digits. -/
def isDigitCh (c : Nat) : Bool := 48 ≤ c && c ≤ 57

/-- Numeric value of a digit string. -/
def digitsVal (l : List Nat) : Nat := l.foldl (fun a c => a * 10 + (c - 48)) 0

/-- JS array-index property keys: canonical decimal strings of an
integer below 2^32 - 1 (all digits, no leading zero except `"0"`
itself).  `Object.entries` lists them before all other string keys, in
ascending numeric order. -/
def isArrayIdx (k : List Nat) : Bool :=
  !k.isEmpty && k.all isDigitCh && (k == [48] || k.head? != some 48) &&
  decide (digitsVal k ≤ 4294967294)

/-- Insert an entry into a list kept in ascending numeric key order. -/
def insertIdx (e : List Nat × AttrVal) : KV → KV
  | [] => [e]
  | f :: rest =>
    if digitsVal e.1 < digitsVal f.1 then e :: f :: rest else f :: insertIdx e rest

/-- Sort entries by ascending numeric key value. -/
def sortIdx : KV → KV
  | [] => []
  | e :: rest => insertIdx e (sortIdx rest)

/-- `Object.entries` enumeration order (line 77): array-index keys first
in ascending numeric order, then the remaining string keys in insertion
order. -/
def entriesOrder (kv : KV) : KV :=
  sortIdx (kv.filter (fun e => isArrayIdx e.1)) ++
    kv.filter (fun e => !isArrayIdx e.1)

/-- Rebuild the attribute body as the source does: the entries of the
`kv` object in `Object.entries` order (lines 76-83). -/
def serializeKV (kv : KV) : List Nat := serializeIns (entriesOrder kv)

/-! ## `langTag` (lines 104-134) -/

/-- Attribute keys used by the rewriter. -/
def kTYPE : List Nat := S "TYPE"

/-- The `GROUP-ID` key. -/
def kGROUPID : List Nat := S "GROUP-ID"

/-- The `LANGUAGE` key. -/
def kLANGUAGE : List Nat := S "LANGUAGE"

/-- The `NAME` key. -/
def kNAME : List Nat := S "NAME"

/-- The `FORCED` key. -/
def kFORCED : List Nat := S "FORCED"

/-- The `CHANNELS` key. -/
def kCHANNELS : List Nat := S "CHANNELS"

/-- The `CHARACTERISTICS` key. -/
def kCHARACTERISTICS : List Nat := S "CHARACTERISTICS"

/-- The `gid` fallback of `langTag`. -/
def gidOf (kv : KV) : List Nat :=
  match lookupA kv kGROUPID with
  | some a => a.value
  | none => S "gid"

/-- The `und` fallback of `langTag`. -/
def langOf (kv : KV) : List Nat :=
  match lookupA kv kLANGUAGE with
  | some a => a.value
  | none => S "und"

/-- The duplicate-counter key `` `${gid}.${lang}` ``. -/
def keyOf (kv : KV) : List Nat := gidOf kv ++ (46 :: langOf kv)

/-- The `state` object threaded through one `manifestRewriter` call:
counter per joined key string. -/
abbrev LState := List (List Nat × Nat)

/-- Counter lookup. -/
def lookupN : LState → List Nat → Option Nat
  | [], _ => none
  | (k', n) :: rest, k => if k' = k then some n else lookupN rest k

/-- Counter store (replace in place, else append). -/
def setN : LState → List Nat → Nat → LState
  | [], k, n => [(k, n)]
  | (k', n') :: rest, k, n =>
    if k' = k then (k, n) :: rest else (k', n') :: setN rest k n

/-- `langTag(state, kv)`.  A zero or absent counter (`!state[key]`)
registers the key and returns the language unchanged; the Nth repeat
gets the suffix `-X` + letter.  For `tagSeq > 26` the source executes
`tagseq -= 25` — a read of the undeclared `tagseq`, which throws
`ReferenceError`; that throw is modelled by `none`. -/
def langTag (st : LState) (kv : KV) : Option (List Nat × LState) :=
  let key := keyOf kv
  let lang := langOf kv
  let p :=
    match lookupN st key with
    | none => (0, setN st key 1)
    | some n => if n = 0 then (0, setN st key 1) else (n, setN st key (n + 1))
  if p.1 = 0 then some (lang, p.2)
  else if p.1 > 26 then none
  else some (lang ++ [45, 88, 64 + p.1], p.2)

/-! ## `manifestRewriter` (lines 28-91) -/

/-- JS `String.prototype.split(',')`; the empty string yields `[""]`. -/
def consHead (c : Nat) : List (List Nat) → List (List Nat)
  | [] => [[c]]
  | l :: ls => (c :: l) :: ls

/-- Split on commas, JS `split(',')` semantics. -/
def splitComma : List Nat → List (List Nat)
  | [] => [[]]
  | c :: rest => if c = 44 then [] :: splitComma rest else consHead c (splitComma rest)

/-- Split on `/\r?\n/` (line 31): LF or CRLF separate lines, a lone CR
is line content. -/
def splitLines : List Nat → List (List Nat)
  | [] => [[]]
  | 13 :: 10 :: rest => [] :: splitLines rest
  | 10 :: rest => [] :: splitLines rest
  | c :: rest => consHead c (splitLines rest)

/-- The marker literal `'xyzzy.obj.'`. -/
def marker : List Nat := S "xyzzy.obj."

/-- The side-channel object collected from the line (lines 64-67):
each of the four known fields is copied when present. -/
def mkObj (kv : KV) : SCObj :=
  { LANGUAGE := (lookupA kv kLANGUAGE).map AttrVal.value
    NAME := (lookupA kv kNAME).map AttrVal.value
    FORCED := (lookupA kv kFORCED).map AttrVal.value
    CHANNELS := (lookupA kv kCHANNELS).map AttrVal.value }

/-- The existing `CHARACTERISTICS` entries of the line, split on commas
(`kv.CHARACTERISTICS ? kv.CHARACTERISTICS.value.split(/,/) : []`). -/
def chParts (kv : KV) : List (List Nat) :=
  match lookupA kv kCHARACTERISTICS with
  | some a => splitComma a.value
  | none => []

/-- Lines 63-73 of `manifestRewriter`: push the marker token onto
`CHARACTERISTICS` and overwrite `LANGUAGE` with the `langTag` result
(`none` when `langTag` throws). -/
def processKv (st : LState) (kv : KV) : Option (KV × LState) :=
  let obj := mkObj kv
  let kv1 := upsert kv kCHARACTERISTICS
    ⟨joinSep [44] (chParts kv ++ [marker ++ encodeObject obj]), true⟩
  (langTag st kv1).map (fun r => (upsert kv1 kLANGUAGE ⟨r.1, true⟩, r.2))

/-- The fixed rendition-line marker `'#EXT-X-MEDIA:'` (13 characters). -/
def mediaHdr : List Nat := S "#EXT-X-MEDIA:"

/-- The `TYPE` gate of line 59: present and `SUBTITLES` or `AUDIO`. -/
def eligible (kv : KV) : Bool :=
  match lookupA kv kTYPE with
  | none => false
  | some a => a.value == S "SUBTITLES" || a.value == S "AUDIO"

/-- One iteration of the `for` loop of `manifestRewriter`: pass
non-rendition and non-eligible lines through, rewrite the rest. -/
def processLine (st : LState) (line : List Nat) : Option (List Nat × LState) :=
  if mediaHdr.isPrefixOf line then
    let kv := parseAttrs (line.drop 13)
    if eligible kv then
      (processKv st kv).map (fun r => (mediaHdr ++ serializeKV r.1, r.2))
    else some (line, st)
  else some (line, st)

/-- Process all lines in order, threading `state`; `none` when any line
throws (no per-line catch exists in the source). -/
def runLines (st : LState) : List (List Nat) → Option (List (List Nat) × LState)
  | [] => some ([], st)
  | l :: rest =>
    (processLine st l).bind (fun p =>
      (runLines p.2 rest).map (fun q => (p.1 :: q.1, q.2)))

/-- `manifestRewriter(m3u8)`: split on `/\r?\n/`, rewrite eligible
rendition lines, rejoin with `'\n'`.  (`numUpdated` only feeds a
`console.log` and has no effect on the result.) -/
def manifestRewriter (m : List Nat) : Option (List Nat) :=
  (runLines [] (splitLines m)).map (fun r => joinSep [10] r.1)

/-! ## `tracksUpdater` / `doTracksUpdate` (lines 137-193) -/

/-- A track descriptor from a `MEDIA_STATUS` message; `none` fields are
absent.  (`channelCount` receives the `CHANNELS` string verbatim in the
source, so it is modelled as a string.) -/
structure Track where
  language : Option (List Nat) := none
  name : Option (List Nat) := none
  forced : Option Bool := none
  channelCount : Option (List Nat) := none
  roles : Option (List (List Nat)) := none
deriving DecidableEq, Repr

/-- JS truthiness of a possibly-absent string: present and non-empty. -/
def truthyS : Option (List Nat) → Bool
  | some v => !v.isEmpty
  | none => false

/-- Lines 167-187 applied to the first marker role found at position
`|pre|`: `pre` and `rest` are the roles before and after it.  The
`forced_subtitle` push happens before the `splice`, so it lands at the
end of the spliced list. -/
def applyObj (t : Track) (obj : SCObj) (pre rest : List (List Nat)) : Track :=
  let spliced := pre ++ rest
  let roles2 := if truthyS obj.FORCED then spliced ++ [S "forced_subtitle"] else spliced
  { language :=
      if truthyS obj.LANGUAGE then obj.LANGUAGE
      else if truthyS t.language && (S "und").isPrefixOf (t.language.getD []) then none
      else t.language
    name := if truthyS obj.NAME then obj.NAME else t.name
    forced := if truthyS obj.FORCED then some true else t.forced
    channelCount := if truthyS obj.CHANNELS then obj.CHANNELS else t.channelCount
    roles := if roles2 = [] then none else some roles2 }

/-- Scan `roles` for the first entry starting with the marker; decode
failure is the thrown exception (`none`), scanning stops after the
first marker (`break`). -/
def scanRoles (t : Track) : List (List Nat) → List (List Nat) → Option Track
  | _, [] => some t
  | pre, r :: rest =>
    if marker.isPrefixOf r then
      (decodeObject (r.drop 10)).map (fun obj => applyObj t obj pre.reverse rest)
    else scanRoles t (r :: pre) rest

/-- The per-track body of `doTracksUpdate`: tracks without `roles` are
skipped (an empty `roles` array is truthy and scanned normally). -/
def applyTrack (t : Track) : Option Track :=
  match t.roles with
  | none => some t
  | some roles => scanRoles t [] roles

/-- `doTracksUpdate` over the track list.  The source mutates tracks in
place inside one `try` block, so a throw keeps the tracks already
updated and leaves the failing track and everything after it untouched;
the Boolean records whether a throw escaped to `tracksUpdater`. -/
def doTracksUpdate : List Track → List Track × Bool
  | [] => ([], false)
  | t :: rest =>
    match applyTrack t with
    | none => (t :: rest, true)
    | some t' =>
      let p := doTracksUpdate rest
      (t' :: p.1, p.2)

/-- `tracksUpdater(resp)`: absent `media.tracks` is returned as is,
otherwise `doTracksUpdate` runs under the catch-all `try` and the
(possibly partially updated) response is returned. -/
def tracksUpdater : Option (List Track) → Option (List Track)
  | none => none
  | some ts => some (doTracksUpdate ts).1

/-! ## Predicates and auxiliary definitions used by the claim statements -/

/-- A Unicode scalar value (a JS string position that is not a lone
surrogate). -/
def scalarChar (c : Nat) : Prop := c < 55296 ∨ (57344 ≤ c ∧ c < 1114112)

/-- Plain printable text: at or above the space character and a scalar
value. -/
def printableChar (c : Nat) : Prop := 32 ≤ c ∧ scalarChar c

/-- Every character printable. -/
def printableStr (s : List Nat) : Prop := ∀ c ∈ s, printableChar c

instance : DecidablePred scalarChar := fun c => by
  unfold scalarChar
  infer_instance

instance : DecidablePred printableChar := fun c => by
  unfold printableChar
  infer_instance

instance (s : List Nat) : Decidable (printableStr s) := by
  unfold printableStr
  infer_instance

instance (o : Option (List Nat)) : Decidable (∀ v ∈ o, printableStr v) := by
  cases o with
  | none => exact isTrue (by simp)
  | some v => exact decidable_of_iff (printableStr v) (by simp [printableStr])

/-- Every present field of the side-channel object printable. -/
def printableObj (o : SCObj) : Prop :=
  (∀ v ∈ o.LANGUAGE, printableStr v) ∧ (∀ v ∈ o.NAME, printableStr v) ∧
  (∀ v ∈ o.FORCED, printableStr v) ∧ (∀ v ∈ o.CHANNELS, printableStr v)

instance (o : SCObj) : Decidable (printableObj o) := by
  unfold printableObj
  infer_instance

/-- Well-formedness of one parsed attribute: a nonempty key over the
key alphabet that is not an array-index string (else `Object.entries`
reorders it), a value free of line terminators (else the regexes fail
on every earlier attribute of the line), a quoted value free of double
quotes, a bare value free of commas and not beginning with a double
quote. -/
def goodAttr (e : List Nat × AttrVal) : Prop :=
  e.1 ≠ [] ∧ (∀ c ∈ e.1, isKeyChar c = true) ∧ isArrayIdx e.1 = false ∧
  (∀ c ∈ e.2.value, isLineTerm c = false) ∧
  (if e.2.quoted then 34 ∉ e.2.value
   else 44 ∉ e.2.value ∧ e.2.value.head? ≠ some 34)

/-- A well-formed attribute set: pairwise distinct keys, each entry
well-formed.  `serializeKV` of such a set is exactly the well-formed
rendition attribute line with those attributes. -/
def goodKV (kv : KV) : Prop :=
  kv.Pairwise (fun a b => a.1 ≠ b.1) ∧ ∀ e ∈ kv, goodAttr e

instance (e : List Nat × AttrVal) : Decidable (goodAttr e) := by
  unfold goodAttr
  infer_instance

instance (kv : KV) : Decidable (goodKV kv) := by
  unfold goodKV
  infer_instance

/-- Lines `manifestRewriter` passes through unchanged: not a rendition
declaration, or one whose `TYPE` is absent or neither handled kind. -/
def skippable (line : List Nat) : Prop :=
  mediaHdr.isPrefixOf line = false ∨ eligible (parseAttrs (line.drop 13)) = false

instance (line : List Nat) : Decidable (skippable line) := by
  unfold skippable
  infer_instance

/-- Replace every (leftmost-scanned) CRLF by LF. -/
def crlfToLf : List Nat → List Nat
  | [] => []
  | 13 :: 10 :: rest => 10 :: crlfToLf rest
  | c :: rest => c :: crlfToLf rest

/-- A sequence of `langTag` allocations in manifest line order, starting
from a given state (the shape in which `manifestRewriter` consumes the
allocator). -/
def runLangSeq (st : LState) : List KV → Option (List (List Nat) × LState)
  | [] => some ([], st)
  | kv :: rest =>
    (langTag st kv).bind (fun p =>
      (runLangSeq p.2 rest).map (fun q => (p.1 :: q.1, q.2)))

/-- Counter value the JS code sees for a key (absent and `0` are both
falsy, hence both read as zero). -/
def stGet (st : LState) (k : List Nat) : Nat := (lookupN st k).getD 0

/-- Number of earlier sequence entries sharing the `i`-th entry's
joined counter key. -/
def occBefore (kvs : List KV) (i : Nat) : Nat :=
  ((kvs.take i).countP (fun kv => decide (keyOf kv = keyOf (kvs.getD i []))))

/-- No role of the track carries the marker. -/
def noMarkerRoles (t : Track) : Prop :=
  ∀ rs ∈ t.roles, ∀ r ∈ rs, marker.isPrefixOf r = false

/-! Concrete inputs used by counterexamples and witnesses. -/

/-- An eligible audio rendition line with group `g`, language `en`. -/
def lineEn : List Nat := S "#EXT-X-MEDIA:TYPE=AUDIO,GROUP-ID=\"g\",LANGUAGE=\"en\""

/-- A manifest of 28 identical `g`/`en` audio renditions: the 28th has
27 earlier duplicates, so its `langTag` call reaches the broken
overflow branch. -/
def mBig : List Nat := joinSep [10] (List.replicate 28 lineEn)

/-- The attribute set of an audio rendition with group `g`, language
`en`. -/
def kvEn : KV :=
  [(kTYPE, ⟨S "AUDIO", false⟩), (kGROUPID, ⟨S "g", true⟩), (kLANGUAGE, ⟨S "en", true⟩)]

/-- Attribute set with group `g.x`, language `en` (joined key `g.x.en`). -/
def kvDotA : KV := [(kGROUPID, ⟨S "g.x", true⟩), (kLANGUAGE, ⟨S "en", true⟩)]

/-- Attribute set with group `g`, language `x.en` (the same joined key
`g.x.en` as `kvDotA`, though the pair differs). -/
def kvDotB : KV := [(kGROUPID, ⟨S "g", true⟩), (kLANGUAGE, ⟨S "x.en", true⟩)]

/-- The three-line manifest of the C4 example: two `g`/`en` audio
renditions and one `g`/`de`. -/
def m3Example : List Nat :=
  lineEn ++ 10 :: lineEn ++ (10 :: S "#EXT-X-MEDIA:TYPE=AUDIO,GROUP-ID=\"g\",LANGUAGE=\"de\"")

/-- The output `langTag` produces for the Nth earlier occurrence count
(`tagSeq` value) of a key, in the in-range cases. -/
def tagFor (n : Nat) (lang : List Nat) : List Nat :=
  if n = 0 then lang else lang ++ [45, 88, 64 + n]

/-- The rewritten attribute set and state for the `g`/`en` audio line
from a fresh state (used to instantiate C8 concretely). -/
def kvEnProc : KV × LState := (processKv [] kvEn).getD ([], [])

/-- A track whose only role is a marker token with an undecodable
payload (`!!!` is not base64). -/
def tMal : Track := { roles := some [marker ++ S "!!!"] }

/-- A track with a decodable marker token (language `en`, forced). -/
def tOK : Track :=
  { roles := some [S "public.accessibility.describes-video",
      marker ++ encodeObject ⟨some (S "en"), none, some (S "YES"), none⟩] }

/-! ## Helper lemmas -/

theorem consHead_ne_nil (c : Nat) (ls : List (List Nat)) : consHead c ls ≠ [] := by
  cases ls <;> simp [consHead]

theorem joinSep10_consHead (c : Nat) (ls : List (List Nat)) :
    joinSep [10] (consHead c ls) = c :: joinSep [10] ls := by
  cases ls with
  | nil => rfl
  | cons l ls' => cases ls' <;> simp [consHead, joinSep]

theorem splitLines_ne_nil (m : List Nat) : splitLines m ≠ [] := by
  induction m using splitLines.induct with
  | case1 => simp [splitLines]
  | case2 rest ih => simp [splitLines]
  | case3 rest ih => simp [splitLines]
  | case4 c rest h1 h2 ih => simp [splitLines, h1, h2, consHead_ne_nil]

theorem join_splitLines (m : List Nat) : joinSep [10] (splitLines m) = crlfToLf m := by
  induction m using splitLines.induct with
  | case1 => rfl
  | case2 rest ih =>
    obtain ⟨l, ls, he⟩ := List.exists_cons_of_ne_nil (splitLines_ne_nil rest)
    rw [show splitLines (13 :: 10 :: rest) = [] :: splitLines rest from rfl, he]
    rw [he] at ih
    simpa [joinSep, crlfToLf] using ih
  | case3 rest ih =>
    obtain ⟨l, ls, he⟩ := List.exists_cons_of_ne_nil (splitLines_ne_nil rest)
    rw [show splitLines (10 :: rest) = [] :: splitLines rest from rfl, he]
    rw [he] at ih
    simpa [joinSep, crlfToLf] using ih
  | case4 c rest h1 h2 ih =>
    rw [show splitLines (c :: rest) = consHead c (splitLines rest) from by
      simp [splitLines, h1, h2]]
    rw [joinSep10_consHead, ih]
    simp [crlfToLf, h1, h2]

theorem processLine_skip (st : LState) (line : List Nat) (h : skippable line) :
    processLine st line = some (line, st) := by
  unfold processLine
  rcases h with h | h
  · simp [h]
  · cases hm : mediaHdr.isPrefixOf line
    · simp
    · simp [h]

theorem runLines_skip (ls : List (List Nat)) (st : LState) (h : ∀ l ∈ ls, skippable l) :
    runLines st ls = some (ls, st) := by
  induction ls generalizing st with
  | nil => rfl
  | cons l rest ih =>
    have h1 := processLine_skip st l (h l (by simp))
    have h2 := ih st (fun x hx => h x (by simp [hx]))
    simp [runLines, h1, h2]

theorem scanRoles_no_marker (t : Track) (rs : List (List Nat))
    (h : ∀ r ∈ rs, marker.isPrefixOf r = false) :
    ∀ pre, scanRoles t pre rs = some t := by
  induction rs with
  | nil => intro pre; rfl
  | cons r rest ih =>
    intro pre
    have hr := h r (by simp)
    rw [scanRoles, if_neg (by simp [hr])]
    exact ih (fun x hx => h x (by simp [hx])) (r :: pre)

/-! ## Base64 round-trip -/

theorem b64d_b64c : ∀ n < 64, b64d (b64c n) = some n := by decide

theorem b64c_ne_61 : ∀ n < 64, b64c n ≠ 61 := by decide

theorem b64c_not_ws : ∀ n < 64, isB64Ws (b64c n) = false := by decide

theorem base64Encode_mem (l : List Nat) (h : ∀ b ∈ l, b < 256) :
    ∀ c ∈ base64Encode l, c = 61 ∨ ∃ n, n < 64 ∧ c = b64c n := by
  induction l using base64Encode.induct with
  | case1 => intro c hc; simp [base64Encode] at hc
  | case2 b1 =>
    intro c hc
    have hb1 := h b1 (by simp)
    simp [base64Encode] at hc
    rcases hc with rfl | rfl | rfl
    · exact Or.inr ⟨b1 / 4, by omega, rfl⟩
    · exact Or.inr ⟨b1 % 4 * 16, by omega, rfl⟩
    · exact Or.inl rfl
  | case3 b1 b2 =>
    intro c hc
    have hb1 := h b1 (by simp)
    have hb2 := h b2 (by simp)
    simp [base64Encode] at hc
    rcases hc with rfl | rfl | rfl | rfl
    · exact Or.inr ⟨b1 / 4, by omega, rfl⟩
    · exact Or.inr ⟨b1 % 4 * 16 + b2 / 16, by omega, rfl⟩
    · exact Or.inr ⟨b2 % 16 * 4, by omega, rfl⟩
    · exact Or.inl rfl
  | case4 b1 b2 b3 rest ih =>
    intro c hc
    have hb1 := h b1 (by simp)
    have hb2 := h b2 (by simp)
    have hb3 := h b3 (by simp)
    simp [base64Encode] at hc
    rcases hc with rfl | rfl | rfl | rfl | hc
    · exact Or.inr ⟨b1 / 4, by omega, rfl⟩
    · exact Or.inr ⟨b1 % 4 * 16 + b2 / 16, by omega, rfl⟩
    · exact Or.inr ⟨b2 % 16 * 4 + b3 / 64, by omega, rfl⟩
    · exact Or.inr ⟨b3 % 64, by omega, rfl⟩
    · exact ih (fun b hb => h b (by simp [hb])) c hc

theorem base64Encode_filter (l : List Nat) (h : ∀ b ∈ l, b < 256) :
    (base64Encode l).filter (fun c => !(isB64Ws c)) = base64Encode l := by
  rw [List.filter_eq_self]
  intro c hc
  rcases base64Encode_mem l h c hc with rfl | ⟨n, hn, rfl⟩
  · decide
  · simp [b64c_not_ws n hn]

theorem base64Encode_length (l : List Nat) : (base64Encode l).length % 4 = 0 := by
  induction l using base64Encode.induct with
  | case1 => rfl
  | case2 b1 => simp [base64Encode]
  | case3 b1 b2 => simp [base64Encode]
  | case4 b1 b2 b3 rest ih =>
    simp only [base64Encode, List.length_cons]
    omega

theorem base64Encode_eq_nil (l : List Nat) : base64Encode l = [] ↔ l = [] := by
  cases l with
  | nil => simp [base64Encode]
  | cons b1 rest =>
    cases rest with
    | nil => simp [base64Encode]
    | cons b2 rest2 => cases rest2 <;> simp [base64Encode]

theorem stripPad_append (t u : List Nat) (ht : t.length % 4 = 0)
    (hu : u.length % 4 = 0) (hne : u ≠ []) :
    stripPad (t ++ u) = t ++ stripPad u := by
  have h4 : 4 ≤ u.length := by
    have : u.length ≠ 0 := fun hz => hne (List.length_eq_zero.mp hz)
    omega
  have hdne : u.dropLast ≠ [] := by
    intro hz
    have := List.length_dropLast u
    rw [hz] at this
    simp at this
    omega
  obtain ⟨a, ha⟩ : ∃ a, u.getLast? = some a := by
    cases hug : u.getLast? with
    | none => exact absurd (List.getLast?_eq_none_iff.mp hug) hne
    | some a => exact ⟨a, rfl⟩
  obtain ⟨b, hb⟩ : ∃ b, u.dropLast.getLast? = some b := by
    cases hug : u.dropLast.getLast? with
    | none => exact absurd (List.getLast?_eq_none_iff.mp hug) hdne
    | some b => exact ⟨b, rfl⟩
  have hlen : (t ++ u).length % 4 = 0 := by
    rw [List.length_append]
    omega
  unfold stripPad
  rw [if_pos hlen, if_pos hu]
  rw [List.getLast?_append, ha, Option.or_some]
  rw [List.dropLast_append_of_ne_nil _ hne]
  rw [List.getLast?_append, hb, Option.or_some]
  by_cases ha61 : a = 61
  · subst ha61
    by_cases hb61 : b = 61
    · subst hb61
      simp [List.dropLast_append_of_ne_nil _ hdne]
    · simp [hb61]
  · simp [ha61]

theorem b64Groups_roundtrip (l : List Nat) (h : ∀ b ∈ l, b < 256) :
    b64Groups (stripPad (base64Encode l)) = some l ∧
    (stripPad (base64Encode l)).length % 4 ≠ 1 := by
  induction l using base64Encode.induct with
  | case1 => exact ⟨rfl, by decide⟩
  | case2 b1 =>
    have hb1 := h b1 (by simp)
    have e1 : b64d (b64c (b1 / 4)) = some (b1 / 4) := b64d_b64c _ (by omega)
    have e2 : b64d (b64c (b1 % 4 * 16)) = some (b1 % 4 * 16) := b64d_b64c _ (by omega)
    have hs : stripPad (base64Encode [b1]) = [b64c (b1 / 4), b64c (b1 % 4 * 16)] := by
      simp [base64Encode, stripPad, List.getLast?]
    rw [hs]
    refine ⟨?_, by simp⟩
    simp only [b64Groups, e1, e2, Option.bind_eq_bind, Option.some_bind]
    simp
    omega
  | case3 b1 b2 =>
    have hb1 := h b1 (by simp)
    have hb2 := h b2 (by simp)
    have e1 : b64d (b64c (b1 / 4)) = some (b1 / 4) := b64d_b64c _ (by omega)
    have e2 : b64d (b64c (b1 % 4 * 16 + b2 / 16)) = some (b1 % 4 * 16 + b2 / 16) :=
      b64d_b64c _ (by omega)
    have e3 : b64d (b64c (b2 % 16 * 4)) = some (b2 % 16 * 4) := b64d_b64c _ (by omega)
    have hz : b64c (b2 % 16 * 4) ≠ 61 := b64c_ne_61 _ (by omega)
    have hs : stripPad (base64Encode [b1, b2]) =
        [b64c (b1 / 4), b64c (b1 % 4 * 16 + b2 / 16), b64c (b2 % 16 * 4)] := by
      simp [base64Encode, stripPad, List.getLast?, hz]
    rw [hs]
    refine ⟨?_, by simp⟩
    simp only [b64Groups, e1, e2, e3, Option.bind_eq_bind, Option.some_bind]
    simp
    omega
  | case4 b1 b2 b3 rest ih =>
    have hb1 := h b1 (by simp)
    have hb2 := h b2 (by simp)
    have hb3 := h b3 (by simp)
    have hrest : ∀ b ∈ rest, b < 256 := fun b hb => h b (by simp [hb])
    obtain ⟨ih1, ih2⟩ := ih hrest
    have e1 : b64d (b64c (b1 / 4)) = some (b1 / 4) := b64d_b64c _ (by omega)
    have e2 : b64d (b64c (b1 % 4 * 16 + b2 / 16)) = some (b1 % 4 * 16 + b2 / 16) :=
      b64d_b64c _ (by omega)
    have e3 : b64d (b64c (b2 % 16 * 4 + b3 / 64)) = some (b2 % 16 * 4 + b3 / 64) :=
      b64d_b64c _ (by omega)
    have e4 : b64d (b64c (b3 % 64)) = some (b3 % 64) := b64d_b64c _ (by omega)
    by_cases hE : rest = []
    · subst hE
      have hz : b64c (b3 % 64) ≠ 61 := b64c_ne_61 _ (by omega)
      have hs : stripPad (base64Encode [b1, b2, b3]) = base64Encode [b1, b2, b3] := by
        simp [base64Encode, stripPad, List.getLast?, hz]
      rw [hs]
      refine ⟨?_, by simp [base64Encode]⟩
      simp only [base64Encode, b64Groups, e1, e2, e3, e4, Option.bind_eq_bind,
        Option.some_bind]
      simp
      omega
    · have hEne : base64Encode rest ≠ [] := fun hz => hE ((base64Encode_eq_nil rest).mp hz)
      have henc : base64Encode (b1 :: b2 :: b3 :: rest) =
          [b64c (b1 / 4), b64c (b1 % 4 * 16 + b2 / 16), b64c (b2 % 16 * 4 + b3 / 64),
            b64c (b3 % 64)] ++ base64Encode rest := by
        simp [base64Encode]
      rw [henc, stripPad_append _ _ (by simp) (base64Encode_length rest) hEne]
      constructor
      · show b64Groups (b64c (b1 / 4) :: b64c (b1 % 4 * 16 + b2 / 16) ::
          b64c (b2 % 16 * 4 + b3 / 64) :: b64c (b3 % 64) :: stripPad (base64Encode rest)) =
          some (b1 :: b2 :: b3 :: rest)
        simp only [b64Groups, e1, e2, e3, e4, ih1, Option.bind_eq_bind, Option.some_bind]
        simp
        omega
      · simp only [List.length_append, List.length_cons, List.length_nil]
        omega

theorem base64_roundtrip (l : List Nat) (h : ∀ b ∈ l, b < 256) :
    base64Decode (base64Encode l) = some l := by
  obtain ⟨h1, h2⟩ := b64Groups_roundtrip l h
  have hd : base64Decode (base64Encode l) =
      if (stripPad (base64Encode l)).length % 4 = 1 then none
      else b64Groups (stripPad (base64Encode l)) := by
    unfold base64Decode
    rw [base64Encode_filter l h]
  rw [hd, if_neg h2]
  exact h1

/-! ## UTF-8 round-trip -/

theorem scalarChar_lt (c : Nat) (hc : scalarChar c) : c < 1114112 := by
  rcases hc with h | ⟨h1, h2⟩ <;> omega

theorem utf8Bytes_lt_256 (c : Nat) (hc : c < 1114112) : ∀ b ∈ utf8Bytes c, b < 256 := by
  intro b hb
  unfold utf8Bytes at hb
  split_ifs at hb with h1 h2 h3
  · simp at hb; omega
  · simp at hb; rcases hb with rfl | rfl <;> omega
  · simp at hb; rcases hb with rfl | rfl | rfl <;> omega
  · simp at hb; rcases hb with rfl | rfl | rfl | rfl <;> omega

theorem utf8Encode_lt_256 (s : List Nat) (h : ∀ c ∈ s, scalarChar c) :
    ∀ b ∈ utf8Encode s, b < 256 := by
  intro b hb
  simp only [utf8Encode, List.mem_flatten, List.mem_map] at hb
  obtain ⟨bs, ⟨c, hcs, rfl⟩, hbc⟩ := hb
  exact utf8Bytes_lt_256 c (scalarChar_lt c (h c hcs)) b hbc

theorem utf8Bytes_cons (c : Nat) : ∃ b t, utf8Bytes c = b :: t := by
  unfold utf8Bytes
  split_ifs <;> exact ⟨_, _, rfl⟩

theorem utf8DecodeChar_bytes (c : Nat) (hc : scalarChar c) (w : List Nat) :
    utf8DecodeChar (utf8Bytes c ++ w) = some (c, w) := by
  by_cases h1 : c < 128
  · rw [show utf8Bytes c = [c] from by simp [utf8Bytes, h1]]
    simp [utf8DecodeChar, h1]
  · by_cases h2 : c < 2048
    · rw [show utf8Bytes c = [192 + c / 64, 128 + c % 64] from by
        simp [utf8Bytes, h1, h2]]
      have c1 : ¬ (192 + c / 64 < 128) := by omega
      have c4 : isCont (128 + c % 64) = true := by simp [isCont]; omega
      simp only [List.cons_append, List.nil_append, utf8DecodeChar]
      rw [if_neg c1, if_pos ⟨by omega, by omega⟩, if_pos c4]
      have hv : (192 + c / 64 - 192) * 64 + (128 + c % 64 - 128) = c := by omega
      rw [hv]
    · by_cases h3 : c < 65536
      · rw [show utf8Bytes c = [224 + c / 4096, 128 + c / 64 % 64, 128 + c % 64] from by
          simp [utf8Bytes, h1, h2, h3]]
        have c1 : ¬ (224 + c / 4096 < 128) := by omega
        have c2 : ¬ (194 ≤ 224 + c / 4096 ∧ 224 + c / 4096 < 224) := by omega
        have c5 : isCont (128 + c / 64 % 64) = true := by simp [isCont]; omega
        have c6 : isCont (128 + c % 64) = true := by simp [isCont]; omega
        have hsc : (224 + c / 4096 - 224) * 4096 + (128 + c / 64 % 64 - 128) * 64 +
            (128 + c % 64 - 128) < 55296 ∨
            57344 ≤ (224 + c / 4096 - 224) * 4096 + (128 + c / 64 % 64 - 128) * 64 +
            (128 + c % 64 - 128) := by
          rcases hc with h | ⟨ha, hb⟩
          · exact Or.inl (by omega)
          · exact Or.inr (by omega)
        simp only [List.cons_append, List.nil_append, utf8DecodeChar]
        rw [if_neg c1, if_neg c2, if_pos ⟨by omega, by omega⟩,
          if_pos ⟨c5, c6, by omega, hsc⟩]
        have hv : (224 + c / 4096 - 224) * 4096 + (128 + c / 64 % 64 - 128) * 64 +
            (128 + c % 64 - 128) = c := by omega
        rw [hv]
      · have hc' : c < 1114112 := scalarChar_lt c hc
        rw [show utf8Bytes c =
            [240 + c / 262144, 128 + c / 4096 % 64, 128 + c / 64 % 64, 128 + c % 64] from by
          simp [utf8Bytes, h1, h2, h3]]
        have c1 : ¬ (240 + c / 262144 < 128) := by omega
        have c2 : ¬ (194 ≤ 240 + c / 262144 ∧ 240 + c / 262144 < 224) := by omega
        have c3 : ¬ (224 ≤ 240 + c / 262144 ∧ 240 + c / 262144 < 240) := by omega
        have c6 : isCont (128 + c / 4096 % 64) = true := by simp [isCont]; omega
        have c7 : isCont (128 + c / 64 % 64) = true := by simp [isCont]; omega
        have c8 : isCont (128 + c % 64) = true := by simp [isCont]; omega
        simp only [List.cons_append, List.nil_append, utf8DecodeChar]
        rw [if_neg c1, if_neg c2, if_neg c3, if_pos ⟨by omega, by omega⟩,
          if_pos ⟨c6, c7, c8, by omega, by omega⟩]
        have hv : (240 + c / 262144 - 240) * 262144 + (128 + c / 4096 % 64 - 128) * 4096 +
            (128 + c / 64 % 64 - 128) * 64 + (128 + c % 64 - 128) = c := by omega
        rw [hv]

theorem utf8DecodeGo_encode (s : List Nat) :
    (∀ c ∈ s, scalarChar c) → ∀ fuel, s.length ≤ fuel →
    utf8DecodeGo fuel (utf8Encode s) = some s := by
  induction s with
  | nil =>
    intro _ fuel _
    cases fuel <;> rfl
  | cons c cs ih =>
    intro h fuel hf
    obtain ⟨f, rfl⟩ : ∃ f, fuel = f + 1 := ⟨fuel - 1, by simp at hf; omega⟩
    have hc := h c (by simp)
    have hcs : ∀ x ∈ cs, scalarChar x := fun x hx => h x (by simp [hx])
    obtain ⟨b, t, hbt⟩ := utf8Bytes_cons c
    have henc : utf8Encode (c :: cs) = b :: (t ++ utf8Encode cs) := by
      simp [utf8Encode, hbt]
    rw [henc]
    simp only [utf8DecodeGo]
    rw [show b :: (t ++ utf8Encode cs) = utf8Bytes c ++ utf8Encode cs from by
      simp [hbt]]
    rw [utf8DecodeChar_bytes c hc]
    simp only [Option.some_bind]
    rw [ih hcs f (by simp at hf; omega)]
    rfl

theorem utf8Encode_length_ge (s : List Nat) : s.length ≤ (utf8Encode s).length := by
  induction s with
  | nil => simp [utf8Encode]
  | cons c cs ih =>
    obtain ⟨b, t, hbt⟩ := utf8Bytes_cons c
    simp only [utf8Encode, List.map_cons, List.flatten_cons, List.length_append,
      List.length_cons, hbt]
    have : utf8Encode cs = (cs.map utf8Bytes).flatten := rfl
    rw [this] at ih
    omega

theorem utf8_roundtrip (s : List Nat) (h : ∀ c ∈ s, scalarChar c) :
    utf8Decode (utf8Encode s) = some s :=
  utf8DecodeGo_encode s h (utf8Encode s).length (utf8Encode_length_ge s)

/-! ## JSON round-trip -/

theorem jsonEscape_cons (c : Nat) (cs : List Nat) :
    jsonEscape (c :: cs) = jsonEscapeChar c ++ jsonEscape cs := by
  simp [jsonEscape]

theorem jsonEscapeChar_ne_nil (c : Nat) : jsonEscapeChar c ≠ [] := by
  unfold jsonEscapeChar
  split_ifs <;> simp

theorem jsonEscape_length_ge (s : List Nat) : s.length ≤ (jsonEscape s).length := by
  induction s with
  | nil => simp [jsonEscape]
  | cons c cs ih =>
    rw [jsonEscape_cons]
    have h1 : 1 ≤ (jsonEscapeChar c).length := by
      cases hc : jsonEscapeChar c with
      | nil => exact absurd hc (jsonEscapeChar_ne_nil c)
      | cons a t => simp
    simp only [List.length_append, List.length_cons]
    omega

theorem jsonEscapeChar_eq_lit (c : Nat) (h34 : c ≠ 34) (h92 : c ≠ 92) (h32 : 32 ≤ c)
    (hsur : ¬ (55296 ≤ c ∧ c < 57344)) : jsonEscapeChar c = [c] := by
  unfold jsonEscapeChar
  rw [if_neg h34, if_neg h92, if_neg (show ¬c = 8 by omega), if_neg (show ¬c = 9 by omega),
    if_neg (show ¬c = 10 by omega), if_neg (show ¬c = 12 by omega),
    if_neg (show ¬c = 13 by omega),
    if_neg (not_or.mpr ⟨show ¬c < 32 by omega, hsur⟩)]

theorem jsonEscapeChar_head_ne (c e0 : Nat) (t : List Nat)
    (h : jsonEscapeChar c = e0 :: t) : e0 ≠ 34 := by
  unfold jsonEscapeChar at h
  split_ifs at h with h1 h2 h3 h4 h5 h6 h7 h8 <;> simp at h <;> omega

theorem parseJChar_escapeChar (c : Nat) (hc : printableChar c) (w : List Nat) :
    parseJChar (jsonEscapeChar c ++ w) = some (c, w) := by
  obtain ⟨h32, hsc⟩ := hc
  by_cases h34 : c = 34
  · subst h34
    rw [show jsonEscapeChar 34 = [92, 34] from rfl]
    simp [parseJChar]
  · by_cases h92 : c = 92
    · subst h92
      rw [show jsonEscapeChar 92 = [92, 92] from rfl]
      simp [parseJChar]
    · have hsur : ¬ (55296 ≤ c ∧ c < 57344) := by
        rcases hsc with h | ⟨ha, hb⟩ <;> omega
      rw [jsonEscapeChar_eq_lit c h34 h92 h32 hsur]
      show parseJChar (c :: w) = some (c, w)
      simp only [parseJChar]
      rw [if_neg h34, if_neg h92, if_pos h32]

theorem parseJStringGo_escape (s : List Nat) :
    printableStr s → ∀ fuel, s.length + 1 ≤ fuel → ∀ rest,
    parseJStringGo fuel (jsonEscape s ++ 34 :: rest) = some (s, rest) := by
  induction s with
  | nil =>
    intro _ fuel hf rest
    obtain ⟨f, rfl⟩ : ∃ f, fuel = f + 1 := ⟨fuel - 1, by omega⟩
    simp [jsonEscape, parseJStringGo]
  | cons c cs ih =>
    intro h fuel hf rest
    obtain ⟨f, rfl⟩ : ∃ f, fuel = f + 1 := ⟨fuel - 1, by omega⟩
    have hc : printableChar c := h c (by simp)
    have hcs : printableStr cs := fun x hx => h x (by simp [hx])
    obtain ⟨e0, t, het⟩ : ∃ e0 t, jsonEscapeChar c = e0 :: t := by
      cases hcc : jsonEscapeChar c with
      | nil => exact absurd hcc (jsonEscapeChar_ne_nil c)
      | cons a b => exact ⟨a, b, rfl⟩
    have he0 := jsonEscapeChar_head_ne c e0 t het
    rw [jsonEscape_cons, het]
    simp only [List.cons_append, List.append_assoc]
    simp only [parseJStringGo]
    rw [if_neg he0]
    rw [show e0 :: (t ++ (jsonEscape cs ++ 34 :: rest)) =
        jsonEscapeChar c ++ (jsonEscape cs ++ 34 :: rest) from by simp [het]]
    rw [parseJChar_escapeChar c hc]
    simp only [Option.some_bind]
    rw [ih hcs f (by simp at hf; omega) rest]
    rfl

theorem parseJString_escape (s : List Nat) (hp : printableStr s) (rest : List Nat) :
    parseJString (jsonEscape s ++ 34 :: rest) = some (s, rest) := by
  unfold parseJString
  apply parseJStringGo_escape s hp
  have := jsonEscape_length_ge s
  simp only [List.length_append, List.length_cons]
  omega

theorem parseMembers_render (ms : List (List Nat × List Nat)) :
    ms ≠ [] → (∀ m ∈ ms, printableStr m.1 ∧ printableStr m.2) →
    ∀ fuel, ms.length ≤ fuel → ∀ rest,
    parseMembers fuel
      (joinSep [44] (ms.map (fun m => jsonQuote m.1 ++ (58 :: jsonQuote m.2))) ++
        125 :: rest) = some (ms, rest) := by
  induction ms with
  | nil => intro hne; exact absurd rfl hne
  | cons m ms' ih =>
    intro _ h fuel hf rest
    obtain ⟨f, rfl⟩ : ∃ f, fuel = f + 1 := ⟨fuel - 1, by simp at hf; omega⟩
    obtain ⟨hk, hv⟩ := h m (by simp)
    cases ms' with
    | nil =>
      have hshape : joinSep [44]
          ([m].map (fun m => jsonQuote m.1 ++ (58 :: jsonQuote m.2))) ++ 125 :: rest =
          34 :: (jsonEscape m.1 ++
            34 :: (58 :: (34 :: (jsonEscape m.2 ++ 34 :: (125 :: rest))))) := by
        simp [joinSep, jsonQuote]
      rw [hshape]
      simp only [parseMembers]
      rw [parseJString_escape m.1 hk]
      simp only [Option.bind_eq_bind, Option.some_bind]
      rw [parseJString_escape m.2 hv]
      simp only [Option.bind_eq_bind, Option.some_bind]
    | cons m2 ms'' =>
      have hshape : joinSep [44]
          ((m :: m2 :: ms'').map (fun m => jsonQuote m.1 ++ (58 :: jsonQuote m.2))) ++
            125 :: rest =
          34 :: (jsonEscape m.1 ++
            34 :: (58 :: (34 :: (jsonEscape m.2 ++ 34 ::
              (44 :: (joinSep [44]
                ((m2 :: ms'').map (fun m => jsonQuote m.1 ++ (58 :: jsonQuote m.2))) ++
                125 :: rest)))))) := by
        simp [joinSep, jsonQuote]
      rw [hshape]
      simp only [parseMembers]
      rw [parseJString_escape m.1 hk]
      simp only [Option.bind_eq_bind, Option.some_bind]
      rw [parseJString_escape m.2 hv]
      simp only [Option.bind_eq_bind, Option.some_bind]
      rw [ih (by simp) (fun x hx => h x (by simp [hx])) f
        (by simp only [List.length_cons] at hf ⊢; omega) rest]
      rfl

theorem joinSep_length_ge (ls : List (List Nat)) (h : ∀ x ∈ ls, x ≠ []) :
    ls.length ≤ (joinSep [44] ls).length := by
  induction ls with
  | nil => simp [joinSep]
  | cons l ls' ih =>
    have h1 : 1 ≤ l.length := by
      cases hl : l with
      | nil => exact absurd hl (h l (by simp))
      | cons a t => simp
    cases ls' with
    | nil => simp [joinSep]; omega
    | cons l2 ls'' =>
      have h2 := ih (fun x hx => h x (by simp at hx ⊢; tauto))
      have hj : joinSep [44] (l :: l2 :: ls'') = l ++ [44] ++ joinSep [44] (l2 :: ls'') :=
        rfl
      rw [hj]
      simp only [List.length_append, List.length_cons] at h2 ⊢
      omega

theorem joinSep_mem (ls : List (List Nat)) (c : Nat) (hc : c ∈ joinSep [44] ls) :
    c = 44 ∨ ∃ l ∈ ls, c ∈ l := by
  induction ls with
  | nil => simp [joinSep] at hc
  | cons l ls' ih =>
    cases ls' with
    | nil =>
      simp only [joinSep] at hc
      exact Or.inr ⟨l, by simp, hc⟩
    | cons l2 ls'' =>
      have hj : joinSep [44] (l :: l2 :: ls'') = l ++ [44] ++ joinSep [44] (l2 :: ls'') :=
        rfl
      rw [hj] at hc
      simp only [List.mem_append, List.mem_cons] at hc
      rcases hc with (hc | hc) | hc
      · exact Or.inr ⟨l, by simp, hc⟩
      · simp at hc; exact Or.inl hc
      · rcases ih hc with h | ⟨x, hx, hcx⟩
        · exact Or.inl h
        · exact Or.inr ⟨x, by simp at hx ⊢; tauto, hcx⟩

theorem joinSep_cons_head (sep l : List Nat) (ls : List (List Nat)) :
    ∃ t, joinSep sep (l :: ls) = l ++ t := by
  cases ls with
  | nil => exact ⟨[], by simp [joinSep]⟩
  | cons a b => exact ⟨sep ++ joinSep sep (a :: b), by simp [joinSep]⟩

theorem objMembers_mem (o : SCObj) (m : List Nat × List Nat) (hm : m ∈ objMembers o) :
    (m.1 = S "LANGUAGE" ∧ o.LANGUAGE = some m.2) ∨
    (m.1 = S "NAME" ∧ o.NAME = some m.2) ∨
    (m.1 = S "FORCED" ∧ o.FORCED = some m.2) ∨
    (m.1 = S "CHANNELS" ∧ o.CHANNELS = some m.2) := by
  unfold objMembers at hm
  simp only [List.mem_append] at hm
  rcases hm with ((h | h) | h) | h
  · cases hL : o.LANGUAGE with
    | none => rw [hL] at h; simp at h
    | some v =>
      rw [hL] at h
      simp at h
      subst h
      exact Or.inl ⟨rfl, rfl⟩
  · cases hN : o.NAME with
    | none => rw [hN] at h; simp at h
    | some v =>
      rw [hN] at h
      simp at h
      subst h
      exact Or.inr (Or.inl ⟨rfl, rfl⟩)
  · cases hF : o.FORCED with
    | none => rw [hF] at h; simp at h
    | some v =>
      rw [hF] at h
      simp at h
      subst h
      exact Or.inr (Or.inr (Or.inl ⟨rfl, rfl⟩))
  · cases hC : o.CHANNELS with
    | none => rw [hC] at h; simp at h
    | some v =>
      rw [hC] at h
      simp at h
      subst h
      exact Or.inr (Or.inr (Or.inr ⟨rfl, rfl⟩))

theorem objMembers_printable (o : SCObj) (h : printableObj o) :
    ∀ m ∈ objMembers o, printableStr m.1 ∧ printableStr m.2 := by
  intro m hm
  obtain ⟨hL, hN, hF, hC⟩ := h
  rcases objMembers_mem o m hm with ⟨h1, h2⟩ | ⟨h1, h2⟩ | ⟨h1, h2⟩ | ⟨h1, h2⟩
  · exact ⟨by rw [h1]; decide, hL m.2 (Option.mem_def.mpr h2)⟩
  · exact ⟨by rw [h1]; decide, hN m.2 (Option.mem_def.mpr h2)⟩
  · exact ⟨by rw [h1]; decide, hF m.2 (Option.mem_def.mpr h2)⟩
  · exact ⟨by rw [h1]; decide, hC m.2 (Option.mem_def.mpr h2)⟩

theorem jsonQuote_ne_nil (s : List Nat) : jsonQuote s ≠ [] := by
  simp [jsonQuote]

theorem jsonParseObj_stringify (o : SCObj) (h : printableObj o) :
    jsonParseObj (jsonStringify o) = some (objMembers o) := by
  cases hms : objMembers o with
  | nil =>
    have hstr : jsonStringify o = [123, 125] := by
      unfold jsonStringify
      rw [hms]
      rfl
    rw [hstr]
    rfl
  | cons m ms' =>
    have hprint : ∀ x ∈ m :: ms', printableStr x.1 ∧ printableStr x.2 := by
      rw [← hms]
      exact objMembers_printable o h
    obtain ⟨tail, htail⟩ : ∃ tail,
        joinSep [44] ((m :: ms').map (fun m => jsonQuote m.1 ++ (58 :: jsonQuote m.2))) =
          34 :: tail := by
      simp only [List.map_cons]
      obtain ⟨t0, ht0⟩ := joinSep_cons_head [44] (jsonQuote m.1 ++ (58 :: jsonQuote m.2))
        (ms'.map (fun m => jsonQuote m.1 ++ (58 :: jsonQuote m.2)))
      rw [ht0]
      exact ⟨jsonEscape m.1 ++ [34] ++ (58 :: jsonQuote m.2) ++ t0, by
        simp [jsonQuote]⟩
    have hstr : jsonStringify o = 123 :: 34 :: (tail ++ [125]) := by
      unfold jsonStringify
      rw [hms, htail]
      simp
    rw [hstr]
    rw [show jsonParseObj (123 :: 34 :: (tail ++ [125])) =
        (parseMembers (34 :: (tail ++ [125])).length (34 :: (tail ++ [125]))).bind
          (fun p => if p.2 = [] then some p.1 else none) from rfl]
    have harg : (34 : Nat) :: (tail ++ [125]) =
        joinSep [44] ((m :: ms').map (fun m => jsonQuote m.1 ++ (58 :: jsonQuote m.2))) ++
          125 :: [] := by
      rw [htail]
      simp
    have hfuel : (m :: ms').length ≤ (34 :: (tail ++ [125])).length := by
      have hg := joinSep_length_ge
        ((m :: ms').map (fun m => jsonQuote m.1 ++ (58 :: jsonQuote m.2)))
        (by
          intro x hx
          simp only [List.mem_map] at hx
          obtain ⟨mm, _, rfl⟩ := hx
          simp [jsonQuote])
      rw [htail] at hg
      simp only [List.length_map, List.length_cons, List.length_append] at hg ⊢
      omega
    rw [harg, parseMembers_render (m :: ms') (by simp) hprint _
      (by rw [harg] at hfuel; exact hfuel) []]
    simp [hms]

theorem hexDigit_lt (n : Nat) (h : n < 16) : hexDigit n < 128 := by
  unfold hexDigit
  split_ifs <;> omega

theorem jsonEscapeChar_scalar (c : Nat) (hc : printableChar c) :
    ∀ x ∈ jsonEscapeChar c, scalarChar x := by
  intro x hx
  unfold jsonEscapeChar at hx
  split_ifs at hx with h1 h2 h3 h4 h5 h6 h7 h8
  · simp at hx; rcases hx with rfl | rfl <;> exact Or.inl (by omega)
  · simp at hx; rcases hx with rfl | rfl <;> exact Or.inl (by omega)
  · simp at hx; rcases hx with rfl | rfl <;> exact Or.inl (by omega)
  · simp at hx; rcases hx with rfl | rfl <;> exact Or.inl (by omega)
  · simp at hx; rcases hx with rfl | rfl <;> exact Or.inl (by omega)
  · simp at hx; rcases hx with rfl | rfl <;> exact Or.inl (by omega)
  · simp at hx; rcases hx with rfl | rfl <;> exact Or.inl (by omega)
  · simp at hx
    rcases hx with rfl | rfl | rfl | rfl | rfl | rfl
    · exact Or.inl (by omega)
    · exact Or.inl (by omega)
    · exact Or.inl (by have := hexDigit_lt (c / 4096 % 16) (by omega); omega)
    · exact Or.inl (by have := hexDigit_lt (c / 256 % 16) (by omega); omega)
    · exact Or.inl (by have := hexDigit_lt (c / 16 % 16) (by omega); omega)
    · exact Or.inl (by have := hexDigit_lt (c % 16) (by omega); omega)
  · simp at hx; subst hx; exact hc.2

theorem jsonEscape_scalar (s : List Nat) (hp : printableStr s) :
    ∀ c ∈ jsonEscape s, scalarChar c := by
  intro c hcm
  unfold jsonEscape at hcm
  simp only [List.mem_flatten, List.mem_map] at hcm
  obtain ⟨bs, ⟨ch, hch, rfl⟩, hcb⟩ := hcm
  exact jsonEscapeChar_scalar ch (hp ch hch) c hcb

theorem jsonStringify_scalar (o : SCObj) (h : printableObj o) :
    ∀ c ∈ jsonStringify o, scalarChar c := by
  intro c hc
  unfold jsonStringify at hc
  simp only [List.mem_cons, List.mem_append] at hc
  rcases hc with (rfl | hc) | hc
  · exact Or.inl (by omega)
  · rcases joinSep_mem _ c hc with rfl | ⟨l, hl, hcl⟩
    · exact Or.inl (by omega)
    · simp only [List.mem_map] at hl
      obtain ⟨m, hm, rfl⟩ := hl
      obtain ⟨hk, hv⟩ := objMembers_printable o h m hm
      have hq : ∀ (s : List Nat), printableStr s → c ∈ jsonQuote s → scalarChar c := by
        intro s hs hcq
        simp only [jsonQuote, List.mem_append, List.mem_cons, List.mem_singleton,
          List.not_mem_nil, or_false] at hcq
        rcases hcq with (rfl | hcq) | rfl
        · exact Or.inl (by omega)
        · exact jsonEscape_scalar s hs c hcq
        · exact Or.inl (by omega)
      simp only [List.mem_append, List.mem_cons] at hcl
      rcases hcl with hcl | rfl | hcl
      · exact hq m.1 hk hcl
      · exact Or.inl (by omega)
      · exact hq m.2 hv hcl
  · simp at hc; subst hc; exact Or.inl (by omega)

theorem objOfMembers_objMembers (o : SCObj) : objOfMembers (objMembers o) = o := by
  rcases o with ⟨L, N, F, C⟩
  cases L <;> cases N <;> cases F <;> cases C <;>
    simp +decide [objMembers, objOfMembers, lastLookup]

theorem decodeObject_encodeObject (o : SCObj) (h : printableObj o) :
    decodeObject (encodeObject o) = some o := by
  have hsc := jsonStringify_scalar o h
  unfold decodeObject encodeObject
  rw [base64_roundtrip _ (utf8Encode_lt_256 _ hsc)]
  simp only [Option.bind_eq_bind, Option.some_bind]
  rw [utf8_roundtrip _ hsc]
  simp only [Option.some_bind]
  rw [jsonParseObj_stringify o h]
  simp only [Option.some_bind]
  rw [objOfMembers_objMembers]
  rfl

/-! ## Claim C1 — side-channel round-trip -/

/-- Claim C1: for every side-channel object whose field values are
plain printable text (no control characters, no lone surrogates),
decoding the encoding returns the object: `decodeObject (encodeObject
o) = some o`. -/
theorem c1_decode_encode_roundtrip (o : SCObj) (h : printableObj o) :
    decodeObject (encodeObject o) = some o :=
  decodeObject_encodeObject o h

/-- Witness for C1 at a concrete object with an accented (non-ASCII)
name. -/
theorem c1_roundtrip_witness :
    printableObj ⟨some (S "en"), some (S "Señor"), some (S "YES"), some (S "6")⟩ ∧
    decodeObject (encodeObject
      ⟨some (S "en"), some (S "Señor"), some (S "YES"), some (S "6")⟩) =
      some ⟨some (S "en"), some (S "Señor"), some (S "YES"), some (S "6")⟩ :=
  ⟨by decide, c1_decode_encode_roundtrip _ (by decide)⟩

/-! ## Attribute line parse/serialize round-trip -/

theorem takeWhile_drop_key (p : Nat → Bool) (k : List Nat) (b : Nat) (X : List Nat)
    (hk : ∀ c ∈ k, p c = true) (hb : p b = false) :
    (k ++ b :: X).takeWhile p = k ∧ (k ++ b :: X).drop k.length = b :: X := by
  constructor
  · rw [List.takeWhile_append_of_pos hk, List.takeWhile_cons_of_neg (by simp [hb])]
    simp
  · exact List.drop_left' rfl

theorem isKeyChar_not_term (c : Nat) (h : isKeyChar c = true) : isLineTerm c = false := by
  unfold isKeyChar at h
  unfold isLineTerm
  simp at h ⊢
  omega

theorem serializeIns_no_term (kv : KV) (h : ∀ e ∈ kv, goodAttr e) :
    ∀ c ∈ serializeIns kv, isLineTerm c = false := by
  intro c hc
  unfold serializeIns at hc
  rcases joinSep_mem _ c hc with rfl | ⟨l, hl, hcl⟩
  · rfl
  · simp only [List.mem_map] at hl
    obtain ⟨e, he, rfl⟩ := hl
    obtain ⟨-, hk2, -, hvterm, -⟩ := h e he
    by_cases hq : e.2.quoted
    · rw [if_pos hq] at hcl
      simp only [List.append_assoc, List.cons_append, List.mem_append,
        List.mem_cons, List.not_mem_nil, or_false] at hcl
      rcases hcl with hck | rfl | rfl | (hcv | rfl)
      · exact isKeyChar_not_term c (hk2 c hck)
      · rfl
      · rfl
      · exact hvterm c hcv
      · rfl
    · rw [if_neg hq] at hcl
      simp only [List.mem_append, List.mem_cons] at hcl
      rcases hcl with hck | rfl | hcv
      · exact isKeyChar_not_term c (hk2 c hck)
      · rfl
      · exact hvterm c hcv

theorem entriesOrder_no_idx (kv : KV) (h : ∀ e ∈ kv, isArrayIdx e.1 = false) :
    entriesOrder kv = kv := by
  unfold entriesOrder
  have h1 : kv.filter (fun e => isArrayIdx e.1) = [] := by
    rw [List.filter_eq_nil_iff]
    intro e he
    simp [h e he]
  have h2 : kv.filter (fun e => !isArrayIdx e.1) = kv := by
    rw [List.filter_eq_self]
    intro e he
    simp [h e he]
  rw [h1, h2]
  rfl

theorem serializeKV_eq_ins (kv : KV) (h : ∀ e ∈ kv, isArrayIdx e.1 = false) :
    serializeKV kv = serializeIns kv := by
  unfold serializeKV
  rw [entriesOrder_no_idx kv h]

theorem matchQuoted_renderQ (k v T : List Nat) (hk1 : k ≠ [])
    (hk2 : ∀ c ∈ k, isKeyChar c = true) (hv : 34 ∉ v) (hT : T = [] ∨ ∃ R, T = 44 :: R)
    (hTt : ∀ c ∈ T, isLineTerm c = false) :
    matchQuoted (k ++ 61 :: 34 :: (v ++ 34 :: T)) =
      some (k, v, T.tail) := by
  obtain ⟨ht, hd⟩ := takeWhile_drop_key isKeyChar k 61 (34 :: (v ++ 34 :: T)) hk2 (by decide)
  obtain ⟨hvt, hvd⟩ := takeWhile_drop_key (fun c => c != 34) v 34 T
    (fun c hc => bne_iff_ne.mpr (fun h => hv (h ▸ hc))) (by simp)
  unfold matchQuoted
  simp only [ht, hd, if_neg hk1, hvt, hvd]
  rcases hT with rfl | ⟨R, rfl⟩
  · rfl
  · have hA : R.any isLineTerm = false := by
      rw [List.any_eq_false]
      intro x hx
      simp [hTt x (by simp [hx])]
    have hdw : List.dropWhile isJsSpace (44 :: R) = 44 :: R :=
      List.dropWhile_cons_of_neg (by decide)
    rw [hdw]
    show (if R.any isLineTerm = true then none else some (k, v, R)) = some (k, v, R)
    rw [hA, if_neg Bool.false_ne_true]

theorem matchQuoted_renderB (k v T : List Nat) (hk2 : ∀ c ∈ k, isKeyChar c = true)
    (hvh : v.head? ≠ some 34) (hT : T = [] ∨ ∃ R, T = 44 :: R) :
    matchQuoted (k ++ 61 :: (v ++ T)) = none := by
  obtain ⟨ht, hd⟩ := takeWhile_drop_key isKeyChar k 61 (v ++ T) hk2 (by decide)
  unfold matchQuoted
  simp only [ht, hd]
  by_cases hk : k = []
  · simp [hk]
  · rw [if_neg hk]
    cases v with
    | nil =>
      rcases hT with rfl | ⟨R, rfl⟩
      · rfl
      · rfl
    | cons c0 v' =>
      have hc0 : c0 ≠ 34 := by simpa using hvh
      simp only [List.cons_append]
      split
      · rename_i r2 heq
        simp at heq
        exact absurd heq.1 hc0
      · rfl

theorem takeWhile_drop_all (p : Nat → Bool) (v : List Nat) (hv : ∀ c ∈ v, p c = true) :
    v.takeWhile p = v ∧ v.drop v.length = ([] : List Nat) := by
  constructor
  · exact List.takeWhile_eq_self_iff.mpr hv
  · simp

theorem matchBare_renderEnd (k v : List Nat) (hk1 : k ≠ [])
    (hk2 : ∀ c ∈ k, isKeyChar c = true) (hv : 44 ∉ v) :
    matchBare (k ++ 61 :: v) = some (k, v, []) := by
  obtain ⟨ht, hd⟩ := takeWhile_drop_key isKeyChar k 61 v hk2 (by decide)
  obtain ⟨hvt, hvd⟩ := takeWhile_drop_all (fun c => c != 44) v
    (fun c hc => bne_iff_ne.mpr (fun h => hv (h ▸ hc)))
  unfold matchBare
  simp only [ht, hd, if_neg hk1, hvt, hvd]
  rfl

theorem matchBare_renderMid (k v R : List Nat) (hk1 : k ≠ [])
    (hk2 : ∀ c ∈ k, isKeyChar c = true) (hv : 44 ∉ v)
    (hR : ∀ c ∈ R, isLineTerm c = false) :
    matchBare (k ++ 61 :: (v ++ 44 :: R)) = some (k, v, R) := by
  obtain ⟨ht, hd⟩ := takeWhile_drop_key isKeyChar k 61 (v ++ 44 :: R) hk2 (by decide)
  obtain ⟨hvt, hvd⟩ := takeWhile_drop_key (fun c => c != 44) v 44 R
    (fun c hc => bne_iff_ne.mpr (fun h => hv (h ▸ hc))) (by simp)
  have hA : R.any isLineTerm = false := by
    rw [List.any_eq_false]
    intro x hx
    simp [hR x hx]
  unfold matchBare
  simp only [ht, hd, if_neg hk1, hvt, hvd, hA]
  rfl

theorem parseKVGo_nil (fuel : Nat) (acc : KV) : parseKVGo fuel [] acc = acc := by
  cases fuel <;> rfl

theorem upsert_not_mem (acc : KV) (k : List Nat) (a : AttrVal)
    (h : lookupA acc k = none) : upsert acc k a = acc ++ [(k, a)] := by
  induction acc with
  | nil => rfl
  | cons e rest ih =>
    obtain ⟨k0, a0⟩ := e
    unfold lookupA at h
    by_cases hk : k0 = k
    · simp [hk] at h
    · rw [if_neg hk] at h
      unfold upsert
      rw [if_neg hk, ih h]
      simp

theorem lookupA_append_single (acc : KV) (k : List Nat) (a : AttrVal) (k' : List Nat)
    (h : lookupA acc k' = none) (hne : k ≠ k') :
    lookupA (acc ++ [(k, a)]) k' = none := by
  induction acc with
  | nil => simp [lookupA, hne]
  | cons e rest ih =>
    obtain ⟨k0, a0⟩ := e
    unfold lookupA at h
    by_cases hk : k0 = k'
    · simp [hk] at h
    · rw [if_neg hk] at h
      simp only [List.cons_append]
      unfold lookupA
      rw [if_neg hk]
      exact ih h

theorem serializeIns_ne_nil (k : List Nat) (a : AttrVal) (kv : KV) (hk : k ≠ []) :
    serializeIns ((k, a) :: kv) ≠ [] := by
  obtain ⟨c0, k', rfl⟩ : ∃ c0 k', k = c0 :: k' := by
    cases hkk : k with
    | nil => exact absurd hkk hk
    | cons c0 k' => exact ⟨c0, k', rfl⟩
  cases kv with
  | nil => cases a with | mk v q => cases q <;> simp [serializeIns, joinSep]
  | cons e2 kv' => cases a with | mk v q => cases q <;> simp [serializeIns, joinSep]

theorem parseKVGo_render (kv : KV) :
    ∀ (acc : KV) (fuel : Nat), kv.length ≤ fuel →
    kv.Pairwise (fun a b => a.1 ≠ b.1) → (∀ e ∈ kv, goodAttr e) →
    (∀ e ∈ kv, lookupA acc e.1 = none) →
    parseKVGo fuel (serializeIns kv) acc = acc ++ kv := by
  induction kv with
  | nil =>
    intro acc fuel _ _ _ _
    have : serializeIns [] = [] := rfl
    rw [this, parseKVGo_nil]
    simp
  | cons e kv' ih =>
    intro acc fuel hf hp hg hl
    obtain ⟨f, rfl⟩ : ∃ f, fuel = f + 1 := ⟨fuel - 1, by simp at hf; omega⟩
    obtain ⟨k, a⟩ := e
    obtain ⟨v, q⟩ := a
    obtain ⟨hk1, hk2, hidx, hvterm, hval⟩ := hg (k, ⟨v, q⟩) (by simp)
    have hlk := hl (k, ⟨v, q⟩) (by simp)
    have hne := serializeIns_ne_nil k ⟨v, q⟩ kv' hk1
    have hpk : ∀ e' ∈ kv', k ≠ e'.1 := by
      have := List.pairwise_cons.mp hp
      exact fun e' he' => this.1 e' he'
    have hrest : ∀ c ∈ serializeIns kv', isLineTerm c = false :=
      serializeIns_no_term kv' (fun x hx => hg x (by simp [hx]))
    have hih := ih (acc ++ [(k, ⟨v, q⟩)]) f (by simp at hf; omega)
      (List.pairwise_cons.mp hp).2 (fun x hx => hg x (by simp [hx]))
      (fun x hx => lookupA_append_single acc k ⟨v, q⟩ x.1 (hl x (by simp [hx]))
        (hpk x hx))
    have hup : upsert acc k (⟨v, q⟩ : AttrVal) = acc ++ [(k, ⟨v, q⟩)] :=
      upsert_not_mem acc k ⟨v, q⟩ hlk
    cases q with
    | true =>
      have hv34 : 34 ∉ v := by simpa using hval
      cases kv' with
      | nil =>
        have hshape : serializeIns [(k, (⟨v, true⟩ : AttrVal))] =
            k ++ 61 :: 34 :: (v ++ 34 :: []) := by
          simp [serializeIns, joinSep]
        rw [hshape]
        unfold parseKVGo
        rw [if_neg (hshape ▸ hne)]
        rw [matchQuoted_renderQ k v [] hk1 hk2 hv34 (Or.inl rfl) (by simp)]
        simp [hup, parseKVGo_nil]
      | cons e2 kv'' =>
        have hterm2 : ∀ c ∈ 44 :: serializeIns (e2 :: kv''), isLineTerm c = false := by
          intro c hc
          rcases List.mem_cons.mp hc with rfl | hc
          · rfl
          · exact hrest c hc
        have hshape : serializeIns ((k, (⟨v, true⟩ : AttrVal)) :: e2 :: kv'') =
            k ++ 61 :: 34 :: (v ++ 34 :: (44 :: serializeIns (e2 :: kv''))) := by
          simp [serializeIns, joinSep]
        rw [hshape]
        unfold parseKVGo
        rw [if_neg (hshape ▸ hne)]
        rw [matchQuoted_renderQ k v (44 :: serializeIns (e2 :: kv'')) hk1 hk2 hv34
          (Or.inr ⟨_, rfl⟩) hterm2]
        simp only [List.tail_cons, hup]
        rw [hih]
        simp
    | false =>
      obtain ⟨hv44, hvh⟩ : 44 ∉ v ∧ v.head? ≠ some 34 := by simpa using hval
      cases kv' with
      | nil =>
        have hshape : serializeIns [(k, (⟨v, false⟩ : AttrVal))] = k ++ 61 :: v := by
          simp [serializeIns, joinSep]
        rw [hshape]
        unfold parseKVGo
        rw [if_neg (hshape ▸ hne)]
        rw [show k ++ 61 :: v = k ++ 61 :: (v ++ []) from by simp]
        rw [matchQuoted_renderB k v [] hk2 hvh (Or.inl rfl)]
        rw [show k ++ 61 :: (v ++ []) = k ++ 61 :: v from by simp]
        rw [matchBare_renderEnd k v hk1 hk2 hv44]
        simp [hup, parseKVGo_nil]
      | cons e2 kv'' =>
        have hshape : serializeIns ((k, (⟨v, false⟩ : AttrVal)) :: e2 :: kv'') =
            k ++ 61 :: (v ++ 44 :: serializeIns (e2 :: kv'')) := by
          simp [serializeIns, joinSep]
        rw [hshape]
        unfold parseKVGo
        rw [if_neg (hshape ▸ hne)]
        rw [matchQuoted_renderB k v (44 :: serializeIns (e2 :: kv'')) hk2 hvh
          (Or.inr ⟨_, rfl⟩)]
        rw [matchBare_renderMid k v (serializeIns (e2 :: kv'')) hk1 hk2 hv44 hrest]
        simp only [hup]
        rw [hih]
        simp

theorem serializeIns_length_ge (kv : KV) (h : ∀ e ∈ kv, goodAttr e) :
    kv.length ≤ (serializeIns kv).length := by
  have hne : ∀ x ∈ kv.map (fun e =>
      if e.2.quoted then e.1 ++ (61 :: 34 :: e.2.value) ++ [34]
      else e.1 ++ (61 :: e.2.value)), x ≠ [] := by
    intro x hx
    simp only [List.mem_map] at hx
    obtain ⟨e, he, rfl⟩ := hx
    obtain ⟨hk1, _, _⟩ := h e he
    obtain ⟨c0, k', hck⟩ : ∃ c0 k', e.1 = c0 :: k' := by
      cases hkk : e.1 with
      | nil => exact absurd hkk hk1
      | cons c0 k' => exact ⟨c0, k', rfl⟩
    cases hq : e.2.quoted <;> simp [hck]
  have := joinSep_length_ge _ hne
  simpa [serializeIns] using this

theorem parseAttrs_serializeKV (kv : KV) (h : goodKV kv) :
    parseAttrs (serializeKV kv) = kv := by
  have hidx : ∀ e ∈ kv, isArrayIdx e.1 = false := fun e he => (h.2 e he).2.2.1
  rw [serializeKV_eq_ins kv hidx]
  unfold parseAttrs
  have := parseKVGo_render kv [] (serializeIns kv).length
    (serializeIns_length_ge kv h.2) h.1 h.2 (fun e _ => rfl)
  simpa using this

/-! ## Claim C5 — serialize after parse -/

theorem splitComma_ne_nil (l : List Nat) : splitComma l ≠ [] := by
  induction l with
  | nil => simp [splitComma]
  | cons c rest ih =>
    unfold splitComma
    split_ifs
    · simp
    · exact consHead_ne_nil c _

theorem splitComma_no_comma (l : List Nat) : ∀ p ∈ splitComma l, 44 ∉ p := by
  induction l with
  | nil =>
    intro p hp
    simp [splitComma] at hp
    subst hp
    simp
  | cons c rest ih =>
    intro p hp
    unfold splitComma at hp
    by_cases hc : c = 44
    · rw [if_pos hc] at hp
      rcases List.mem_cons.mp hp with rfl | hp
      · simp
      · exact ih p hp
    · rw [if_neg hc] at hp
      obtain ⟨q, qs, hq⟩ : ∃ q qs, splitComma rest = q :: qs := by
        cases hs : splitComma rest with
        | nil => exact absurd hs (splitComma_ne_nil rest)
        | cons q qs => exact ⟨q, qs, rfl⟩
      rw [hq] at hp
      simp only [consHead, List.mem_cons] at hp
      rcases hp with rfl | hp
      · intro hmem
        rcases List.mem_cons.mp hmem with h44 | h44
        · exact hc h44.symm
        · exact ih q (by rw [hq]; simp) h44
      · exact ih p (by rw [hq]; simp [hp])

theorem splitComma_single (p : List Nat) (hp : 44 ∉ p) : splitComma p = [p] := by
  induction p with
  | nil => rfl
  | cons c p' ih =>
    have hc : c ≠ 44 := fun h => hp (by simp [h])
    conv_lhs => unfold splitComma
    rw [if_neg hc, ih (fun h => hp (by simp [h]))]
    rfl

theorem splitComma_append (p X : List Nat) (hp : 44 ∉ p) :
    splitComma (p ++ 44 :: X) = p :: splitComma X := by
  induction p with
  | nil => simp [splitComma]
  | cons c p' ih =>
    have hc : c ≠ 44 := fun h => hp (by simp [h])
    simp only [List.cons_append]
    conv_lhs => unfold splitComma
    rw [if_neg hc, ih (fun h => hp (by simp [h]))]
    rfl

theorem splitComma_joinSep (parts : List (List Nat)) (hne : parts ≠ [])
    (h : ∀ p ∈ parts, 44 ∉ p) : splitComma (joinSep [44] parts) = parts := by
  induction parts with
  | nil => exact absurd rfl hne
  | cons p ps ih =>
    cases ps with
    | nil => exact splitComma_single p (h p (by simp))
    | cons p2 ps' =>
      have hj : joinSep [44] (p :: p2 :: ps') = p ++ 44 :: joinSep [44] (p2 :: ps') := by
        simp [joinSep]
      rw [hj, splitComma_append p _ (h p (by simp)),
        ih (by simp) (fun x hx => h x (by simp [hx]))]

theorem lookupA_upsert_same (kv : KV) (k : List Nat) (a : AttrVal) :
    lookupA (upsert kv k a) k = some a := by
  induction kv with
  | nil => simp [upsert, lookupA]
  | cons e rest ih =>
    obtain ⟨k0, a0⟩ := e
    unfold upsert
    by_cases hk : k0 = k
    · rw [if_pos hk]
      simp [lookupA]
    · rw [if_neg hk]
      unfold lookupA
      rw [if_neg hk]
      exact ih

theorem lookupA_upsert_ne (kv : KV) (k k' : List Nat) (a : AttrVal) (h : k ≠ k') :
    lookupA (upsert kv k a) k' = lookupA kv k' := by
  induction kv with
  | nil => simp [upsert, lookupA, h]
  | cons e rest ih =>
    obtain ⟨k0, a0⟩ := e
    unfold upsert
    by_cases hk : k0 = k
    · rw [if_pos hk]
      unfold lookupA
      rw [if_neg h, if_neg (by rw [hk]; exact h)]
    · rw [if_neg hk]
      unfold lookupA
      by_cases hk' : k0 = k'
      · rw [if_pos hk', if_pos hk']
      · rw [if_neg hk', if_neg hk']
        exact ih

theorem lookupA_mem (kv : KV) (k : List Nat) (a : AttrVal)
    (h : lookupA kv k = some a) : (k, a) ∈ kv := by
  induction kv with
  | nil => simp [lookupA] at h
  | cons e rest ih =>
    obtain ⟨k0, a0⟩ := e
    unfold lookupA at h
    by_cases hk : k0 = k
    · rw [if_pos hk] at h
      subst hk
      simp at h
      subst h
      simp
    · rw [if_neg hk] at h
      simp [ih h]

theorem mkObj_printable (kv : KV) (hp : ∀ e ∈ kv, printableStr e.2.value) :
    printableObj (mkObj kv) := by
  refine ⟨?_, ?_, ?_, ?_⟩ <;>
  · intro v hv
    simp only [mkObj, Option.mem_def, Option.map_eq_some'] at hv
    obtain ⟨a, ha, rfl⟩ := hv
    exact hp (_, a) (lookupA_mem kv _ a ha)

theorem b64c_ne_44 : ∀ n < 64, b64c n ≠ 44 := by decide

theorem encodeObject_no_comma (o : SCObj) (h : printableObj o) :
    44 ∉ encodeObject o := by
  intro hmem
  unfold encodeObject at hmem
  have hbytes : ∀ b ∈ utf8Encode (jsonStringify o), b < 256 :=
    utf8Encode_lt_256 _ (jsonStringify_scalar o h)
  rcases base64Encode_mem _ hbytes 44 hmem with h44 | ⟨n, hn, h44⟩
  · omega
  · exact b64c_ne_44 n hn h44.symm

theorem chParts_no_comma (kv : KV) : ∀ p ∈ chParts kv, 44 ∉ p := by
  unfold chParts
  cases h : lookupA kv kCHARACTERISTICS with
  | none => simp
  | some a => exact splitComma_no_comma a.value

/-! ## Claim C8 — the injected token carries the original language -/

/-- Claim C8: whenever `processKv` (the rewrite of one eligible
rendition line, with printable attribute values) succeeds, the
resulting line's `CHARACTERISTICS` attribute contains, among its
comma-separated entries, the marker-prefixed token whose payload
decodes to the collected side-channel object, and that object's
`LANGUAGE` field is exactly the line's original pre-rewrite `LANGUAGE`
value. -/
theorem c8_characteristics_token_language (st : LState) (kv kv' : KV) (st' : LState)
    (h : processKv st kv = some (kv', st'))
    (hp : ∀ e ∈ kv, printableStr e.2.value) :
    lookupA kv' kCHARACTERISTICS =
      some ⟨joinSep [44] (chParts kv ++ [marker ++ encodeObject (mkObj kv)]), true⟩ ∧
    (marker ++ encodeObject (mkObj kv)) ∈
      splitComma (joinSep [44] (chParts kv ++ [marker ++ encodeObject (mkObj kv)])) ∧
    decodeObject (encodeObject (mkObj kv)) = some (mkObj kv) ∧
    (mkObj kv).LANGUAGE = (lookupA kv kLANGUAGE).map AttrVal.value := by
  have hobj := mkObj_printable kv hp
  have htok : (44 : Nat) ∉ marker ++ encodeObject (mkObj kv) := by
    intro hmem
    rcases List.mem_append.mp hmem with hm | hm
    · revert hm
      decide
    · exact encodeObject_no_comma (mkObj kv) hobj hm
  unfold processKv at h
  rw [Option.map_eq_some'] at h
  obtain ⟨r, hr, heq⟩ := h
  have hkv' : kv' = upsert (upsert kv kCHARACTERISTICS
      ⟨joinSep [44] (chParts kv ++ [marker ++ encodeObject (mkObj kv)]), true⟩)
      kLANGUAGE ⟨r.1, true⟩ := by
    have := congrArg Prod.fst heq
    simpa using this.symm
  refine ⟨?_, ?_, decodeObject_encodeObject _ hobj, rfl⟩
  · rw [hkv', lookupA_upsert_ne _ _ _ _ (by decide), lookupA_upsert_same]
  · rw [splitComma_joinSep _ (by simp) ?_]
    · simp
    · intro p hpp
      rcases List.mem_append.mp hpp with hm | hm
      · exact chParts_no_comma kv p hm
      · simp at hm
        subst hm
        exact htok

/-- Witness for C8 at the concrete `g`/`en` audio line and a fresh
state. -/
theorem c8_witness :
    lookupA kvEnProc.1 kCHARACTERISTICS =
      some ⟨joinSep [44] (chParts kvEn ++ [marker ++ encodeObject (mkObj kvEn)]), true⟩ ∧
    (marker ++ encodeObject (mkObj kvEn)) ∈
      splitComma (joinSep [44] (chParts kvEn ++ [marker ++ encodeObject (mkObj kvEn)])) ∧
    decodeObject (encodeObject (mkObj kvEn)) = some (mkObj kvEn) ∧
    (mkObj kvEn).LANGUAGE = (lookupA kvEn kLANGUAGE).map AttrVal.value :=
  c8_characteristics_token_language [] kvEn kvEnProc.1 kvEnProc.2 (by decide) (by decide)

/-! ## `langTag` allocation-sequence lemmas -/

theorem stGet_nil (k : List Nat) : stGet [] k = 0 := rfl

theorem stGet_setN_same (st : LState) (k : List Nat) (n : Nat) :
    stGet (setN st k n) k = n := by
  induction st with
  | nil => simp [setN, stGet, lookupN]
  | cons e rest ih =>
    obtain ⟨k0, n0⟩ := e
    unfold setN
    by_cases hk : k0 = k
    · rw [if_pos hk]
      simp [stGet, lookupN]
    · rw [if_neg hk]
      unfold stGet lookupN
      rw [if_neg hk]
      exact ih

theorem stGet_setN_ne (st : LState) (k k' : List Nat) (n : Nat) (h : k ≠ k') :
    stGet (setN st k n) k' = stGet st k' := by
  induction st with
  | nil => simp [setN, stGet, lookupN, h]
  | cons e rest ih =>
    obtain ⟨k0, n0⟩ := e
    unfold setN
    by_cases hk : k0 = k
    · rw [if_pos hk]
      unfold stGet lookupN
      rw [if_neg h, if_neg (by rw [hk]; exact h)]
    · rw [if_neg hk]
      unfold stGet lookupN
      by_cases hk' : k0 = k'
      · rw [if_pos hk', if_pos hk']
      · rw [if_neg hk', if_neg hk']
        exact ih

theorem langTag_char (st : LState) (kv : KV) :
    langTag st kv =
      if stGet st (keyOf kv) ≤ 26 then
        some (tagFor (stGet st (keyOf kv)) (langOf kv),
          setN st (keyOf kv) (stGet st (keyOf kv) + 1))
      else none := by
  have hz : langTag st kv =
      (fun p : Nat × LState =>
        if p.1 = 0 then some (langOf kv, p.2)
        else if p.1 > 26 then none
        else some (langOf kv ++ [45, 88, 64 + p.1], p.2))
        (match lookupN st (keyOf kv) with
          | none => (0, setN st (keyOf kv) 1)
          | some n => if n = 0 then (0, setN st (keyOf kv) 1)
              else (n, setN st (keyOf kv) (n + 1))) := rfl
  unfold stGet tagFor
  rw [hz]
  cases h : lookupN st (keyOf kv) with
  | none => simp
  | some n =>
    simp only [Option.getD_some]
    by_cases hn : n = 0
    · subst hn
      simp
    · by_cases h26 : n ≤ 26
      · simp only [if_neg hn, if_pos h26, if_neg (by omega : ¬ n > 26)]
      · simp only [if_neg hn, if_neg h26, if_pos (by omega : n > 26)]

theorem occBefore_zero_cons (kv₀ : KV) (rest : List KV) :
    occBefore (kv₀ :: rest) 0 = 0 := rfl

theorem occBefore_succ_cons (kv₀ : KV) (rest : List KV) (i : Nat) :
    occBefore (kv₀ :: rest) (i + 1) =
      occBefore rest i + (if keyOf kv₀ = keyOf (rest.getD i []) then 1 else 0) := by
  unfold occBefore
  simp only [List.take_succ_cons, List.countP_cons, List.getD_cons_succ,
    decide_eq_true_eq]

theorem runLangSeq_spec (kvs : List KV) :
    ∀ st outs st', runLangSeq st kvs = some (outs, st') →
      outs.length = kvs.length ∧
      ∀ i, i < kvs.length →
        stGet st (keyOf (kvs.getD i [])) + occBefore kvs i ≤ 26 ∧
        outs.getD i [] =
          tagFor (stGet st (keyOf (kvs.getD i [])) + occBefore kvs i)
            (langOf (kvs.getD i [])) := by
  induction kvs with
  | nil =>
    intro st outs st' h
    rw [runLangSeq] at h
    cases h
    exact ⟨rfl, fun i hi => absurd hi (by simp)⟩
  | cons kv₀ rest ih =>
    intro st outs st' h
    rw [runLangSeq, Option.bind_eq_some] at h
    obtain ⟨p, hp, h2⟩ := h
    rw [Option.map_eq_some'] at h2
    obtain ⟨q, hq, h3⟩ := h2
    have houts : outs = p.1 :: q.1 := by
      have := congrArg Prod.fst h3
      simpa using this.symm
    subst houts
    rw [langTag_char] at hp
    by_cases hle : stGet st (keyOf kv₀) ≤ 26
    case neg => rw [if_neg hle] at hp; cases hp
    rw [if_pos hle] at hp
    have hpeq := Option.some.inj hp
    have hp1 : p.1 = tagFor (stGet st (keyOf kv₀)) (langOf kv₀) := by rw [← hpeq]
    have hp2 : p.2 = setN st (keyOf kv₀) (stGet st (keyOf kv₀) + 1) := by rw [← hpeq]
    obtain ⟨hlen, hspec⟩ := ih p.2 q.1 q.2 hq
    refine ⟨by simpa using hlen, ?_⟩
    intro i hi
    cases i with
    | zero =>
      simp only [List.getD_cons_zero, occBefore_zero_cons, Nat.add_zero]
      exact ⟨hle, hp1⟩
    | succ j =>
      have hj : j < rest.length := by simpa using hi
      obtain ⟨hb, ho⟩ := hspec j hj
      rw [hp2] at hb ho
      rw [occBefore_succ_cons]
      simp only [List.getD_cons_succ]
      by_cases hkey : keyOf kv₀ = keyOf (rest.getD j [])
      · rw [if_pos hkey, ← hkey]
        rw [← hkey, stGet_setN_same] at hb ho
        constructor
        · omega
        · rw [ho]
          congr 1
          omega
      · rw [if_neg hkey]
        rw [stGet_setN_ne st _ _ _ hkey] at hb ho
        exact ⟨by omega, by rw [ho, Nat.add_zero]⟩

theorem occBefore_strict (kvs : List KV) (j i : Nat) (hj : j < i) (hi : i ≤ kvs.length)
    (hkey : keyOf (kvs.getD j []) = keyOf (kvs.getD i []))  :
    occBefore kvs j < occBefore kvs i := by
  have hjl : j < kvs.length := by omega
  have h1 : (kvs.take (j + 1)).countP
      (fun kv => decide (keyOf kv = keyOf (kvs.getD i []))) =
      (kvs.take j).countP (fun kv => decide (keyOf kv = keyOf (kvs.getD i []))) + 1 := by
    rw [List.take_succ, List.countP_append]
    have hget : kvs[j]? = some (kvs.getD j []) := by
      rw [List.getElem?_eq_getElem hjl]
      rw [List.getD_eq_getElem _ _ hjl]
    rw [hget]
    simp only [Option.toList_some, List.countP_cons, List.countP_nil]
    rw [hkey]
    simp
  have h2 : (kvs.take (j + 1)).countP
      (fun kv => decide (keyOf kv = keyOf (kvs.getD i []))) ≤
      (kvs.take i).countP (fun kv => decide (keyOf kv = keyOf (kvs.getD i []))) := by
    have hsub : (kvs.take (j + 1)).Sublist (kvs.take i) := by
      have : kvs.take (j + 1) = (kvs.take i).take (j + 1) := by
        rw [List.take_take]
        congr 1
        omega
      rw [this]
      exact List.take_sublist _ _
    exact List.Sublist.countP_le _ hsub
  have hocc : occBefore kvs j =
      (kvs.take j).countP (fun kv => decide (keyOf kv = keyOf (kvs.getD i []))) := by
    unfold occBefore
    congr 1
    funext kv
    rw [hkey]
  have hocci : occBefore kvs i =
      (kvs.take i).countP (fun kv => decide (keyOf kv = keyOf (kvs.getD i []))) := rfl
  rw [hocc, hocci]
  omega

theorem tagFor_ne (n₁ n₂ : Nat) (lang : List Nat) (h : n₁ ≠ n₂) :
    tagFor n₁ lang ≠ tagFor n₂ lang := by
  unfold tagFor
  by_cases h1 : n₁ = 0 <;> by_cases h2 : n₂ = 0
  · omega
  · rw [if_pos h1, if_neg h2]
    intro he
    have := congrArg List.length he
    simp at this
  · rw [if_neg h1, if_pos h2]
    intro he
    have := congrArg List.length he
    simp at this
  · rw [if_neg h1, if_neg h2]
    intro he
    have h3 := congrArg (List.drop lang.length) he
    rw [List.drop_left' rfl, List.drop_left' rfl] at h3
    simp at h3
    omega

/-! ## Claim C4 — allocation order and uniqueness -/

/-- Counterexample to claim C4 as stated over composite `(groupId,
language)` keys: the implementation keys its counters by the joined
string `` `${gid}.${lang}` ``, so the distinct pairs `("g.x", "en")` and
`("g", "x.en")` alias to the same counter key `g.x.en`; the first
occurrence of the pair `("g", "x.en")` (the second call) is then
returned suffixed as `x.en-XA` instead of unchanged. -/
theorem c4_counterexample_joined_key_alias :
    (runLangSeq [] [kvDotA, kvDotB]).map (fun p => p.1) =
      some [S "en", S "x.en" ++ [45, 88, 65]] ∧
    (gidOf kvDotA, langOf kvDotA) ≠ (gidOf kvDotB, langOf kvDotB) ∧
    keyOf kvDotA = keyOf kvDotB ∧
    S "x.en" ++ [45, 88, 65] ≠ S "x.en" := by
  exact ⟨by decide, by decide, by decide, by decide⟩

/-- Claim C4 as amended: occurrences are counted per joined counter key
`` gid ++ "." ++ lang `` (equivalently, the claim as stated holds
provided no two distinct `(groupId, language)` pairs in the sequence
produce the same joined key).  From a fresh state, the first occurrence
of a key returns the language unchanged; the Nth repeat within the
bounded range returns `language-XY` with a two-letter uppercase suffix
distinct from every earlier output for that key; and the concrete
en/en/de manifest of the claim rewrites to `en`, `en-XA`, `de`. -/
theorem c4_allocation_amended (kvs : List KV) (outs : List (List Nat)) (st' : LState)
    (h : runLangSeq [] kvs = some (outs, st'))
    (halias : ∀ i, i < kvs.length → ∀ j, j < kvs.length →
      keyOf (kvs.getD i []) = keyOf (kvs.getD j []) →
      langOf (kvs.getD i []) = langOf (kvs.getD j [])) :
    outs.length = kvs.length ∧
    (∀ i, i < kvs.length →
      (occBefore kvs i = 0 → outs.getD i [] = langOf (kvs.getD i [])) ∧
      (1 ≤ occBefore kvs i →
        outs.getD i [] = langOf (kvs.getD i []) ++ [45, 88, 64 + occBefore kvs i] ∧
        65 ≤ 64 + occBefore kvs i ∧ 64 + occBefore kvs i ≤ 90 ∧
        ∀ j, j < i → keyOf (kvs.getD j []) = keyOf (kvs.getD i []) →
          outs.getD j [] ≠ outs.getD i [])) ∧
    (manifestRewriter m3Example).map (fun out =>
      (splitLines out).map (fun l =>
        (lookupA (parseAttrs (l.drop 13)) kLANGUAGE).map AttrVal.value)) =
      some [some (S "en"), some (S "en" ++ [45, 88, 65]), some (S "de")] := by
  obtain ⟨hlen, hspec⟩ := runLangSeq_spec kvs [] outs st' h
  refine ⟨hlen, ?_, by decide⟩
  intro i hi
  obtain ⟨hb, ho⟩ := hspec i hi
  rw [stGet_nil, Nat.zero_add] at hb ho
  constructor
  · intro h0
    rw [ho, h0]
    rfl
  · intro h1
    refine ⟨by rw [ho]; unfold tagFor; rw [if_neg (by omega)], by omega, by omega, ?_⟩
    intro j hji hkey
    obtain ⟨hbj, hoj⟩ := hspec j (by omega)
    rw [stGet_nil, Nat.zero_add] at hbj hoj
    rw [ho, hoj]
    rw [halias j (by omega) i hi hkey]
    exact tagFor_ne _ _ _
      (by have := occBefore_strict kvs j i hji (by omega) hkey; omega)

/-- Witness for C4's amended claim: two `g`/`en` allocations from a
fresh state give `en` then `en-XA`, and the three-line example manifest
rewrites as the claim says. -/
theorem c4_allocation_witness :
    (manifestRewriter m3Example).map (fun out =>
      (splitLines out).map (fun l =>
        (lookupA (parseAttrs (l.drop 13)) kLANGUAGE).map AttrVal.value)) =
      some [some (S "en"), some (S "en" ++ [45, 88, 65]), some (S "de")] :=
  (c4_allocation_amended [kvEn, kvEn] [S "en", S "en" ++ [45, 88, 65]]
    [(S "g" ++ (46 :: S "en"), 2)] (by decide) (by decide)).2.2

/-! ## Claim C6 — malformed marker payload containment -/

/-- Counterexample to claim C6: in a two-track message whose first
track carries a marker with an undecodable payload, the second track is
not processed at all — its own (decodable, effective) marker is left in
place — because the only `try`/`catch` wraps the whole track loop, not
a single track.  The claim that other tracks in the same message are
still processed is therefore false. -/
theorem c6_counterexample_later_track_skipped :
    tracksUpdater (some [tMal, tOK]) = some [tMal, tOK] ∧
    applyTrack tOK ≠ some tOK ∧ (applyTrack tOK).isSome = true := by
  exact ⟨by decide, by decide, by decide⟩

/-- Claim C6 as amended: a track whose first marker payload is
undecodable is itself left entirely unchanged and no error reaches the
caller of `tracksUpdater`, but the failure aborts the scan: tracks
before the failing one keep their updates while the failing track and
every later track are returned unprocessed. -/
theorem c6_containment_amended (ts1 : List Track) (t : Track) (ts2 ts1' : List Track)
    (h1 : ts1.mapM applyTrack = some ts1') (h2 : applyTrack t = none) :
    doTracksUpdate (ts1 ++ t :: ts2) = (ts1' ++ t :: ts2, true) ∧
    tracksUpdater (some (ts1 ++ t :: ts2)) = some (ts1' ++ t :: ts2) := by
  have main : doTracksUpdate (ts1 ++ t :: ts2) = (ts1' ++ t :: ts2, true) := by
    induction ts1 generalizing ts1' with
    | nil =>
      rw [List.mapM_nil] at h1
      have : ts1' = [] := by simpa using h1.symm
      subst this
      simp [doTracksUpdate, h2]
    | cons a as ih =>
      rw [List.mapM_cons] at h1
      cases ha : applyTrack a with
      | none => rw [ha] at h1; cases h1
      | some b =>
        rw [ha] at h1
        cases hm : as.mapM applyTrack with
        | none => rw [hm] at h1; cases h1
        | some bs =>
          rw [hm] at h1
          have hbs : ts1' = b :: bs := by simpa using h1.symm
          subst hbs
          simp [doTracksUpdate, ha, ih bs hm]
  exact ⟨main, by simp [tracksUpdater, main]⟩

/-- Witness for C6's amended claim at a concrete input: one updatable
track before the malformed one, one after. -/
theorem c6_containment_witness :
    doTracksUpdate [tOK, tMal, tOK] =
      ((applyTrack tOK).getD tOK :: tMal :: [tOK], true) ∧
    tracksUpdater (some [tOK, tMal, tOK]) =
      some ((applyTrack tOK).getD tOK :: tMal :: [tOK]) := by
  have := c6_containment_amended [tOK] tMal [tOK] [(applyTrack tOK).getD tOK]
    (by decide) (by decide)
  simpa using this

/-! ## Claim C10 — the rewriter joins with LF only -/

/-- Claim C10: `manifestRewriter` rejoins the document with `'\n'`: on
any document whose lines are all passed through unchanged it returns
the input with every CRLF separator replaced by LF, and hence is not
the identity on CRLF-separated documents (concretely `"a\r\nb"` comes
back as `"a\nb"`). -/
theorem c10_lf_only_separator :
    (∀ m, (∀ l ∈ splitLines m, skippable l) → manifestRewriter m = some (crlfToLf m)) ∧
    manifestRewriter (S "a\r\nb") = some (S "a\nb") ∧ (S "a\nb" : List Nat) ≠ S "a\r\nb" := by
  refine ⟨fun m h => ?_, by decide, by decide⟩
  rw [manifestRewriter, runLines_skip (splitLines m) [] h]
  simp [join_splitLines]

/-- Witness for C10 applying the universal part at a concrete
CRLF-separated document. -/
theorem c10_witness :
    manifestRewriter (S "x\r\ny\r\n") = some (crlfToLf (S "x\r\ny\r\n")) :=
  c10_lf_only_separator.1 (S "x\r\ny\r\n") (by decide)

/-! ## Claim C2 — `manifestRewriter` never throws past its boundary

The source contains `tagseq -= 25` (line 126) where `tagSeq` was meant:
reading the undeclared `tagseq` throws a `ReferenceError`, and
`manifestRewriter` has no per-line (or any) exception handler, so a
manifest whose 28th duplicate of one `(GROUP-ID, LANGUAGE)` key reaches
that branch makes the whole call throw and produce nothing. -/

/-- Claim C2: the claim that `manifestRewriter` always returns and
confines per-line failures fails on the code: on `mBig` (28 identical
`g`/`en` renditions) the rewriter throws (`none`), returning no
document at all. -/
theorem c2_rewriter_throws_on_overflow : manifestRewriter mBig = none := by decide

/-! ## Claim C3 — `langTag` degrades instead of failing on overflow -/

/-- Claim C3: the claim that `langTag` still returns normally when the
duplicate count exceeds the two-letter enumeration fails on the code:
with 27 prior occurrences recorded for key `g.en`, the call takes the
`tagSeq > 26` branch, whose `tagseq -= 25` reads an undeclared variable
and throws (`none`). -/
theorem c3_langTag_throws_on_overflow :
    langTag [(S "g" ++ (46 :: S "en"), 27)] kvEn = none := by decide

/-! ## Claim C7 — non-rendition and wrong-`TYPE` lines pass through -/

/-- Claim C7: every line that is not a rendition declaration, and every
rendition line whose `TYPE` is neither `AUDIO` nor `SUBTITLES`, appears
in the rewritten document unchanged and at its original position in the
line order. -/
theorem c7_skippable_lines_unchanged (st : LState) (lines out : List (List Nat))
    (st' : LState) (h : runLines st lines = some (out, st')) :
    out.length = lines.length ∧
    ∀ i, skippable (lines.getD i []) → out.getD i [] = lines.getD i [] := by
  induction lines generalizing st out st' with
  | nil =>
    rw [runLines] at h
    cases h
    exact ⟨rfl, fun i _ => rfl⟩
  | cons l rest ih =>
    rw [runLines, Option.bind_eq_some] at h
    obtain ⟨p, hp, h2⟩ := h
    rw [Option.map_eq_some'] at h2
    obtain ⟨q, hq, h3⟩ := h2
    have hout : out = p.1 :: q.1 := by
      have := congrArg Prod.fst h3
      simpa using this.symm
    have hst : st' = q.2 := by
      have := congrArg Prod.snd h3
      simpa using this.symm
    subst hout hst
    obtain ⟨hlen, hel⟩ := ih p.2 q.1 q.2 hq
    refine ⟨by simpa using hlen, fun i hi => ?_⟩
    cases i with
    | zero =>
      have hskip := processLine_skip st l (by simpa using hi)
      have hpl : p = (l, st) := Option.some.inj (hp.symm.trans hskip)
      simp [hpl]
    | succ j => simpa using hel j (by simpa using hi)

/-- Witness for C7: on a concrete two-line document (a comment line and
a `TYPE=VIDEO` rendition line) both lines are skippable and unchanged. -/
theorem c7_witness :
    ([S "# comment", S "#EXT-X-MEDIA:TYPE=VIDEO"].getD 0 []).length = 9 ∧
    (runLines [] [S "# comment", S "#EXT-X-MEDIA:TYPE=VIDEO"] =
      some ([S "# comment", S "#EXT-X-MEDIA:TYPE=VIDEO"], []) ∧
    [S "# comment", S "#EXT-X-MEDIA:TYPE=VIDEO"].getD 1 [] = S "#EXT-X-MEDIA:TYPE=VIDEO") ∧
    ([S "# comment", S "#EXT-X-MEDIA:TYPE=VIDEO"].getD 0 [] = S "# comment") := by
  have h : runLines [] [S "# comment", S "#EXT-X-MEDIA:TYPE=VIDEO"] =
      some ([S "# comment", S "#EXT-X-MEDIA:TYPE=VIDEO"], []) := by decide
  refine ⟨by decide, ⟨h, ?_⟩, ?_⟩
  · exact (c7_skippable_lines_unchanged [] _ _ [] h).2 1 (Or.inr (by decide))
  · exact (c7_skippable_lines_unchanged [] _ _ [] h).2 0 (Or.inl (by decide))

/-! ## Claim C9 — `Apply` is a no-op without a marker -/

/-- Claim C9: on a track descriptor carrying no marker-prefixed role,
`applyTrack` returns the descriptor unchanged, and so does applying it
once more. -/
theorem c9_apply_noop_no_marker (t : Track) (h : noMarkerRoles t) :
    applyTrack t = some t ∧ (applyTrack t).bind applyTrack = some t := by
  have h1 : applyTrack t = some t := by
    rw [applyTrack]
    cases hr : t.roles with
    | none => rfl
    | some rs => exact scanRoles_no_marker t rs (fun r hx => h rs (by simp [hr]) r hx) []
  exact ⟨h1, by rw [h1]; exact h1⟩

/-- Witness for C9: a concrete already-applied descriptor (language set,
`forced_subtitle` role, no marker) is returned unchanged twice. -/
theorem c9_witness :
    applyTrack ⟨some (S "en"), none, some true, none, some [S "forced_subtitle"]⟩ =
      some ⟨some (S "en"), none, some true, none, some [S "forced_subtitle"]⟩ ∧
    (applyTrack ⟨some (S "en"), none, some true, none, some [S "forced_subtitle"]⟩).bind
      applyTrack =
      some ⟨some (S "en"), none, some true, none, some [S "forced_subtitle"]⟩ :=
  c9_apply_noop_no_marker _ (by
    intro rs hrs r hr
    obtain rfl : rs = [S "forced_subtitle"] := (Option.some.inj (Option.mem_def.mp hrs)).symm
    obtain rfl : r = S "forced_subtitle" := by simpa using hr
    decide)

end Receiver
